import Mathlib

/-!
Verification development for `parseidf.py`: a PLY (lex/yacc) based parser
that turns IDF text into a dictionary mapping uppercased object-type names
to the list of objects (lists of field strings) of that type.

The lexer is embedded as a shallow model of the PLY master-regex scan:
at each position the token rules are tried in their PLY priority order
(function rules in definition order, then the string rules), each rule
matching greedily with backtracking exactly as the corresponding Python
regular expression does.  The yacc grammar is embedded as a deterministic functional parser
that follows the LALR(1) actions of the grammar, including which token is
reported on error (`p_error` receives the offending lookahead token, or
`None` at end of input).

Python strings are modelled as Lean `String`s; `str.strip()` and
`str.upper()` are modelled on the ASCII range (the inputs of interest are
ASCII; Python additionally handles non-ASCII Unicode whitespace and case,
which no claim exercises).
-/

namespace ParseIdf

/-- Horizontal whitespace, the character class `[ \t]` used by
`t_COMMA`, `t_SEMICOLON`, `t_newline` and `t_VALUE`. -/
def isHWS (c : Char) : Bool := c == ' ' || c == '\t'

/-- The character class `[ \t\r\n]` that may precede the `!` of a comment
in `t_COMMENT`. -/
def isCWS (c : Char) : Bool := c == ' ' || c == '\t' || c == '\r' || c == '\n'

/-- Characters matched by the repeated group `([^!,;\n]|[*])+` of
`t_VALUE`.  The `[*]` alternative is subsumed by `[^!,;\n]`, so the group
accepts exactly the characters other than `!`, `,`, `;` and newline. -/
def isValChar (c : Char) : Bool := !(c == '!' || c == ',' || c == ';' || c == '\n')

/-- Comment body characters: `.` in `t_COMMENT`'s regex matches every
character except a newline. -/
def isCommentChar (c : Char) : Bool := !(c == '\n')

/-- Characters removed by Python's `str.strip()` (ASCII range). -/
def isPyWS (c : Char) : Bool :=
  c == ' ' || c == '\t' || c == '\n' || c == '\r' || c == '\x0b' || c == '\x0c'

/-- Python `str.strip()`: remove leading and trailing whitespace. -/
def pyStrip (s : String) : String :=
  ⟨((s.data.dropWhile isPyWS).reverse.dropWhile isPyWS).reverse⟩

/-- Python `str.upper()` (ASCII range). -/
def pyUpper (s : String) : String := ⟨s.data.map Char.toUpper⟩

/-- The three token kinds of the lexer (`tokens = ("VALUE", "COMMA",
"SEMICOLON")`).  Each token carries its matched text (`t.value`, the raw
matched string, whitespace included) and the line number it was produced
at (`t.lineno`). -/
inductive Tok where
  | VALUE (text : String) (line : Nat)
  | COMMA (text : String) (line : Nat)
  | SEMICOLON (text : String) (line : Nat)
deriving DecidableEq, Repr

/-- Grammar-level failures raised by `p_error`: either at a concrete
lookahead token (reporting `p.value` and `p.lineno`) or at end of input
(`p` is `None`, "Syntax error at EOF"). -/
inductive ParseErr where
  | atTok (text : String) (line : Nat)
  | atEOF
deriving DecidableEq, Repr

/-- The errors `parse` can raise: the lexical error of `t_error`
("Illegal character 'c' at line n") or a grammar error of `p_error`. -/
inductive IdfError where
  | lexical (ch : Char) (line : Nat)
  | grammar (e : ParseErr)
deriving DecidableEq, Repr

/-- An IDF object: the type name followed by the field values
(`[name] + values`). -/
abbrev IdfObject := List String

/-- The result dictionary: insertion-ordered association list from
uppercased type name to the objects of that type, modelling the Python
`dict` built by `p_idffile`. -/
abbrev Document := List (String × List IdfObject)

/-! ## Lexer rules

Each `matchX` function returns `some (matched, rest)` when the rule's
regex matches at the current position (matching the greedy backtracking
behaviour of the Python pattern), `none` otherwise. -/

/-- Rule `t_COMMENT`, regex `[ \t\r\n]*!.*`.  The leading run is a
maximal run of `[ \t\r\n]`; backtracking it cannot help since a shorter
run still ends at a whitespace character, never at `!`.  `.*` extends to
the end of the physical line. -/
def matchComment (cs : List Char) : Option (List Char × List Char) :=
  match cs.dropWhile isCWS with
  | '!' :: r2 =>
    some (cs.takeWhile isCWS ++ '!' :: r2.takeWhile isCommentChar,
          r2.dropWhile isCommentChar)
  | _ => none

/-- Greedy match of `(\r?\n)+`: one or more newlines, each optionally
preceded by a carriage return. -/
def nlRun : List Char → Option (List Char × List Char)
  | '\n' :: r =>
    match nlRun r with
    | some (m, rest) => some ('\n' :: m, rest)
    | none => some (['\n'], r)
  | '\r' :: '\n' :: r =>
    match nlRun r with
    | some (m, rest) => some ('\r' :: '\n' :: m, rest)
    | none => some (['\r', '\n'], r)
  | _ => none

/-- Rule `t_newline`, regex `[ \t]*(\r?\n)+`. -/
def matchNewline (cs : List Char) : Option (List Char × List Char) :=
  match nlRun (cs.dropWhile isHWS) with
  | some (m, rest) => some (cs.takeWhile isHWS ++ m, rest)
  | none => none

/-- Rule `t_VALUE`, regex `[ \t]*([^!,;\n]|[*])+[ \t]*`.  Since space and
tab are themselves in `[^!,;\n]`, the greedy match (with backtracking of
the leading `[ \t]*` when the group would otherwise be empty) is exactly
the maximal run of non-`!,;\n` characters at the current position, and
the trailing `[ \t]*` always matches the empty string (the character
ending the maximal run is never a space or tab). -/
def matchValue (cs : List Char) : Option (List Char × List Char) :=
  match cs.takeWhile isValChar with
  | [] => none
  | m => some (m, cs.dropWhile isValChar)

/-- The string rules `t_COMMA` (`[ \t]*,[ \t]*`) and `t_SEMICOLON`
(`[ \t]*;[ \t]*`), instantiated with `ch := ','` and `ch := ';'`.
Backtracking the leading `[ \t]*` cannot help, as for `t_COMMENT`. -/
def matchPunct (ch : Char) (cs : List Char) : Option (List Char × List Char) :=
  match cs.dropWhile isHWS with
  | c :: r2 =>
    if c == ch then
      some (cs.takeWhile isHWS ++ c :: r2.takeWhile isHWS, r2.dropWhile isHWS)
    else none
  | [] => none

/-- One scan step of the PLY lexer at the current position.  Rules are
tried in PLY's priority order: the function rules `t_COMMENT`,
`t_newline`, `t_VALUE` in their order of definition, then the string
rules.  Returns `some (token?, newLineno, rest)` on a match (`none` for
the token when the rule discards its match) and `none` when no rule
matches (the `t_error` situation).

Line accounting is modelled exactly as the source performs it:
`t_COMMENT` increments `t.lineno` — an attribute of the token object that
is then discarded — rather than `t.lexer.lineno`, so the lexer's line
counter is **unchanged** across a comment; `t_newline` performs
`t.lexer.lineno += len(t.value)`, adding the full **length of the matched
text** (including any `\r` and leading spaces or tabs), not the number of
newline characters. -/
def lexStep (line : Nat) (cs : List Char) : Option (Option Tok × Nat × List Char) :=
  match matchComment cs with
  | some (_, rest) => some (none, line, rest)
  | none =>
    match matchNewline cs with
    | some (m, rest) => some (none, line + m.length, rest)
    | none =>
      match matchValue cs with
      | some (m, rest) => some (some (.VALUE ⟨m⟩ line), line, rest)
      | none =>
        match matchPunct ',' cs with
        | some (m, rest) => some (some (.COMMA ⟨m⟩ line), line, rest)
        | none =>
          match matchPunct ';' cs with
          | some (m, rest) => some (some (.SEMICOLON ⟨m⟩ line), line, rest)
          | none => none

/-- Run the lexer to completion, producing the token stream.  `fuel`
bounds the number of scan steps; since every successful step consumes at
least one character, `fuel = cs.length` always suffices (see
`tokenizeF_fuel`), so the `.ok []` fuel-exhaustion branch is unreachable
from `tokenize`. -/
def tokenizeF : Nat → Nat → List Char → Except IdfError (List Tok)
  | _, _, [] => .ok []
  | 0, _, _ :: _ => .ok []
  | fuel + 1, line, c :: cs =>
    match lexStep line (c :: cs) with
    | none => .error (.lexical c line)
    | some (none, line2, rest) => tokenizeF fuel line2 rest
    | some (some t, line2, rest) =>
      match tokenizeF fuel line2 rest with
      | .ok ts => .ok (t :: ts)
      | .error e => .error e

/-- Lex a whole input, starting from `lexer.lineno = 1`. -/
def tokenize (cs : List Char) : Except IdfError (List Tok) :=
  tokenizeF cs.length 1 cs

/-- Matched text of a token (`p.value` as seen by `p_error`). -/
def tokText : Tok → String
  | .VALUE s _ => s
  | .COMMA s _ => s
  | .SEMICOLON s _ => s

/-- Line number of a token (`p.lineno` as seen by `p_error`). -/
def tokLine : Tok → Nat
  | .VALUE _ l => l
  | .COMMA _ l => l
  | .SEMICOLON _ l => l

/-! ## Grammar

```
idffile       : idfobjectlist
idfobjectlist : idfobject | idfobject idfobjectlist
idfobject     : objectname SEMICOLON
              | objectname COMMA valuelist SEMICOLON
objectname    : VALUE            (stripped)
valuelist     : VALUE | VALUE COMMA valuelist   (each VALUE stripped)
```

The functions below perform the LALR(1) parse of this grammar.  On a
token sequence the grammar rejects, the error is reported at the
offending lookahead token (`ParseErr.atTok` with its text and line), or
as `ParseErr.atEOF` when the lookahead is the end marker — exactly the
two branches of `p_error`. -/

/-- Parse a `valuelist`, returning the stripped values (source order,
the right-recursive rule `p_valuelist_multiple` prepends) and the
remaining tokens. -/
def parseValuelist : List Tok → Except ParseErr (List String × List Tok)
  | .VALUE v _ :: .COMMA _ _ :: rest =>
    match parseValuelist rest with
    | .ok (vs, rest2) => .ok (pyStrip v :: vs, rest2)
    | .error e => .error e
  | .VALUE v _ :: rest => .ok ([pyStrip v], rest)
  | [] => .error .atEOF
  | t :: _ => .error (.atTok (tokText t) (tokLine t))

/-- Parse one `idfobject`: `p_idfobject` (`[p[1]]`) or
`p_idfobject_with_values` (`[p[1]] + p[3]`), the name stripped by
`p_objectname`. -/
def parseObject : List Tok → Except ParseErr (IdfObject × List Tok)
  | .VALUE v _ :: .SEMICOLON _ _ :: rest => .ok ([pyStrip v], rest)
  | .VALUE v _ :: .COMMA _ _ :: rest =>
    match parseValuelist rest with
    | .error e => .error e
    | .ok (vs, .SEMICOLON _ _ :: rest2) => .ok (pyStrip v :: vs, rest2)
    | .ok (_, []) => .error .atEOF
    | .ok (_, t :: _) => .error (.atTok (tokText t) (tokLine t))
  | [.VALUE _ _] => .error .atEOF
  | .VALUE _ _ :: t :: _ => .error (.atTok (tokText t) (tokLine t))
  | [] => .error .atEOF
  | t :: _ => .error (.atTok (tokText t) (tokLine t))

/-- Parse an `idfobjectlist`: one or more objects consuming the whole
token stream.  `fuel` bounds the number of objects; each object consumes
at least one token, so `toks.length + 1` suffices (see
`parseObjectListF_fuel`). -/
def parseObjectListF : Nat → List Tok → Except ParseErr (List IdfObject)
  | 0, _ => .ok []
  | fuel + 1, toks =>
    match parseObject toks with
    | .error e => .error e
    | .ok (obj, []) => .ok [obj]
    | .ok (obj, t :: r) =>
      match parseObjectListF fuel (t :: r) with
      | .ok objs => .ok (obj :: objs)
      | .error e => .error e

/-- Parse the token stream into the ordered object list.  An empty token
stream (empty or all-comment input) reaches `parseObject []`, i.e. the
`p_error None` branch: "Syntax error at EOF". -/
def parseObjectList (toks : List Tok) : Except ParseErr (List IdfObject) :=
  parseObjectListF (toks.length + 1) toks

/-- One step of the aggregation loop of `p_idffile`:
`result.setdefault(name.upper(), []).append(idfobject)` — append to the
existing entry for the key, or create the key at the end (Python dicts
preserve insertion order). -/
def addObject (doc : Document) (key : String) (obj : IdfObject) : Document :=
  match doc with
  | [] => [(key, [obj])]
  | (k, objs) :: rest =>
    if k = key then (k, objs ++ [obj]) :: rest
    else (k, objs) :: addObject rest key obj

/-- The aggregation of `p_idffile`: fold the parsed objects, in parse
order, into the dictionary.  `obj.headD ""` models `idfobject[0]`; the
parser only ever produces nonempty objects. -/
def p_idffile (objs : List IdfObject) : Document :=
  objs.foldl (fun doc obj => addObject doc (pyUpper (obj.headD "")) obj) []

/-- The token stream reduced to the ordered object list: the yacc phase
of `parse` before `p_idffile` aggregates. -/
def parsedObjects (s : String) : Except IdfError (List IdfObject) :=
  match tokenize s.data with
  | .error e => .error e
  | .ok toks =>
    match parseObjectList toks with
    | .error e => .error (.grammar e)
    | .ok objs => .ok objs

/-- The `parse` entry point: lex and parse the text, then aggregate with
`p_idffile`; any lexical or grammar failure is raised unchanged.  The
`debug` and `write_tables` options have no effect on the result and are
not modelled. -/
def parse (s : String) : Except IdfError Document :=
  match parsedObjects s with
  | .error e => .error e
  | .ok objs => .ok (p_idffile objs)

/-! ## Serialization (modelled from the spec's round-trip law)

The spec's round-trip law serializes each object as
`name, v1, v2, ..., vn;` (or `name;` when it has no fields) and joins
the serialized objects with newlines. -/

/-- Serialize the fields of an object: `", " ++ v` for each field. -/
def serializeFields : List String → String
  | [] => ""
  | v :: vs => ", " ++ v ++ serializeFields vs

/-- Serialize one object as `name, v1, v2, ..., vn;` (`name;` when it
has no fields). -/
def serializeObject (obj : IdfObject) : String :=
  obj.headD "" ++ serializeFields obj.tail ++ ";"

/-- Join strings with single newlines. -/
def joinNL : List String → String
  | [] => ""
  | [s] => s
  | s :: rest => s ++ "\n" ++ joinNL rest

/-- All objects of a document, in key order then per-key source order. -/
def docObjects : Document → List IdfObject
  | [] => []
  | kv :: rest => kv.2 ++ docObjects rest

/-- Serialize a whole document: each object serialized, joined by
newlines. -/
def serializeDoc (doc : Document) : String :=
  joinNL ((docObjects doc).map serializeObject)

/-! ## Aggregation, restated from the spec

The spec describes the aggregator as: iterate objects in parse order,
key each by the uppercased first element, append under that key, create
keys in first-occurrence order, with no deduplication, reordering or
mutation.  `aggSpec` states that algorithm's result directly: the keys
in first-occurrence order, each paired with the in-order sublist of the
objects having that key. -/

/-- The key an object is grouped under: `idfobject[0].upper()`. -/
def aggKey (obj : IdfObject) : String := pyUpper (obj.headD "")

/-- Distinct elements in order of first occurrence. -/
def insKeys (ks : List String) : List String :=
  ks.foldl (fun acc k => if k ∈ acc then acc else acc ++ [k]) []

/-- The spec's description of the aggregated document: first-occurrence
key order, and under each key the source-order sublist of objects keyed
to it. -/
def aggSpec (objs : List IdfObject) : Document :=
  (insKeys (objs.map aggKey)).map
    (fun k => (k, objs.filter (fun o => aggKey o == k)))

/-- Canonical strings: nonempty, containing no `!`, `,`, `;` or newline,
and fixed by `pyStrip` (no surrounding whitespace).  Every nonempty name
or field value produced by a successful parse is canonical, and a
canonical string survives serialization and re-lexing verbatim. -/
def canonStr (s : String) : Bool :=
  !s.data.isEmpty && s.data.all isValChar && pyStrip s == s

/-! ## Basic list lemmas -/

theorem length_dropWhile_le (p : Char → Bool) (l : List Char) :
    (l.dropWhile p).length ≤ l.length := by
  induction l with
  | nil => simp [List.dropWhile]
  | cons c r ih =>
    by_cases h : p c
    · rw [List.dropWhile_cons_of_pos h]; exact Nat.le_succ_of_le ih
    · rw [List.dropWhile_cons_of_neg h]

theorem mem_of_mem_dropWhile {p : Char → Bool} {l : List Char} {a : Char}
    (h : a ∈ l.dropWhile p) : a ∈ l := by
  induction l with
  | nil => simp [List.dropWhile] at h
  | cons c r ih =>
    by_cases hc : p c
    · rw [List.dropWhile_cons_of_pos hc] at h
      exact List.mem_cons_of_mem c (ih h)
    · rwa [List.dropWhile_cons_of_neg hc] at h

theorem dropWhile_head_neg {p : Char → Bool} {l r : List Char} {c : Char}
    (h : l.dropWhile p = c :: r) : p c = false := by
  induction l with
  | nil => simp [List.dropWhile] at h
  | cons d t ih =>
    by_cases hd : p d
    · rw [List.dropWhile_cons_of_pos hd] at h; exact ih h
    · rw [List.dropWhile_cons_of_neg hd] at h
      cases h
      simpa using hd

/-! ## Splitting facts for the lexer rules -/

theorem takeWhile_dropWhile_eq {p : Char → Bool} {l r : List Char} {c : Char}
    (h : l.dropWhile p = c :: r) : l = l.takeWhile p ++ c :: r := by
  conv_lhs => rw [← List.takeWhile_append_dropWhile p l]
  rw [h]

theorem matchComment_split {cs m rest : List Char}
    (h : matchComment cs = some (m, rest)) : cs = m ++ rest ∧ m ≠ [] := by
  cases hdw : cs.dropWhile isCWS with
  | nil => simp [matchComment, hdw] at h
  | cons c r2 =>
    simp only [matchComment, hdw] at h
    split at h
    · rename_i r2x heq
      injection heq with hc hr2
      subst hc
      subst hr2
      simp only [Option.some.injEq, Prod.mk.injEq] at h
      obtain ⟨hm, hr⟩ := h
      have hsplit : cs = cs.takeWhile isCWS ++ '!' :: r2 := takeWhile_dropWhile_eq hdw
      constructor
      · rw [← hm, ← hr, List.append_assoc, List.cons_append,
          List.takeWhile_append_dropWhile, ← hsplit]
      · rw [← hm]; simp
    · simp at h

theorem nlRun_split {cs m rest : List Char} :
    nlRun cs = some (m, rest) → cs = m ++ rest ∧ m ≠ [] := by
  induction cs using nlRun.induct generalizing m rest with
  | case1 r m1 r1 hr ih =>
    intro h
    rw [nlRun, hr] at h
    simp only [Option.some.injEq, Prod.mk.injEq] at h
    obtain ⟨hm, hrest⟩ := h
    obtain ⟨he, _⟩ := ih hr
    subst hm hrest
    simp [he]
  | case2 r hr ih =>
    intro h
    rw [nlRun, hr] at h
    simp only [Option.some.injEq, Prod.mk.injEq] at h
    obtain ⟨hm, hrest⟩ := h
    subst hm hrest
    simp
  | case3 r m1 r1 hr ih =>
    intro h
    rw [nlRun, hr] at h
    simp only [Option.some.injEq, Prod.mk.injEq] at h
    obtain ⟨hm, hrest⟩ := h
    obtain ⟨he, _⟩ := ih hr
    subst hm hrest
    simp [he]
  | case4 r hr ih =>
    intro h
    rw [nlRun, hr] at h
    simp only [Option.some.injEq, Prod.mk.injEq] at h
    obtain ⟨hm, hrest⟩ := h
    subst hm hrest
    simp
  | case5 t h1 h2 =>
    intro h
    rw [nlRun] at h
    · exact absurd h (by simp)
    · exact h1
    · exact h2

theorem matchNewline_split {cs m rest : List Char}
    (h : matchNewline cs = some (m, rest)) : cs = m ++ rest ∧ m ≠ [] := by
  unfold matchNewline at h
  cases hnl : nlRun (cs.dropWhile isHWS) with
  | none => rw [hnl] at h; exact absurd h (by simp)
  | some pr =>
    obtain ⟨m1, r1⟩ := pr
    rw [hnl] at h
    simp only [Option.some.injEq, Prod.mk.injEq] at h
    obtain ⟨hm, hr⟩ := h
    obtain ⟨he, hne⟩ := nlRun_split hnl
    constructor
    · rw [← hm, ← hr, List.append_assoc, ← he, List.takeWhile_append_dropWhile]
    · rw [← hm]
      simp only [ne_eq, List.append_eq_nil, not_and]
      intro _ hcon
      exact hne hcon

theorem matchValue_split {cs m rest : List Char}
    (h : matchValue cs = some (m, rest)) :
    cs = m ++ rest ∧ m ≠ [] ∧ m = cs.takeWhile isValChar ∧ rest = cs.dropWhile isValChar := by
  cases htw : cs.takeWhile isValChar with
  | nil => simp [matchValue, htw] at h
  | cons c r =>
    simp only [matchValue, htw] at h
    simp only [Option.some.injEq, Prod.mk.injEq] at h
    obtain ⟨hm, hr⟩ := h
    refine ⟨?_, ?_, ?_, hr.symm⟩
    · rw [← hm, ← hr, ← htw, List.takeWhile_append_dropWhile]
    · rw [← hm]; simp
    · rw [← hm]

theorem matchPunct_split {ch : Char} {cs m rest : List Char}
    (h : matchPunct ch cs = some (m, rest)) : cs = m ++ rest ∧ m ≠ [] := by
  cases hdw : cs.dropWhile isHWS with
  | nil => simp [matchPunct, hdw] at h
  | cons c r2 =>
    simp only [matchPunct, hdw] at h
    cases hc : c == ch with
    | false => rw [hc] at h; simp at h
    | true =>
      rw [hc] at h
      simp only [if_true, Option.some.injEq, Prod.mk.injEq] at h
      obtain ⟨hm, hr⟩ := h
      have hsplit : cs = cs.takeWhile isHWS ++ c :: r2 := takeWhile_dropWhile_eq hdw
      constructor
      · rw [← hm, ← hr, List.append_assoc, List.cons_append,
          List.takeWhile_append_dropWhile, ← hsplit]
      · rw [← hm]; simp

/-- Any successful lexer step consumes at least one character. -/
theorem lexStep_shrink {line : Nat} {cs : List Char} {o : Option Tok} {line2 : Nat}
    {rest : List Char} (h : lexStep line cs = some (o, line2, rest)) :
    rest.length < cs.length := by
  unfold lexStep at h
  cases h1 : matchComment cs with
  | some pr =>
    obtain ⟨m, r⟩ := pr
    rw [h1] at h
    simp only [Option.some.injEq, Prod.mk.injEq] at h
    obtain ⟨_, _, hr⟩ := h
    subst hr
    obtain ⟨he, hne⟩ := matchComment_split h1
    rw [he]
    simpa using List.length_pos.mpr hne
  | none =>
    rw [h1] at h
    cases h2 : matchNewline cs with
    | some pr =>
      obtain ⟨m, r⟩ := pr
      rw [h2] at h
      simp only [Option.some.injEq, Prod.mk.injEq] at h
      obtain ⟨_, _, hr⟩ := h
      subst hr
      obtain ⟨he, hne⟩ := matchNewline_split h2
      rw [he]
      simpa using List.length_pos.mpr hne
    | none =>
      rw [h2] at h
      cases h3 : matchValue cs with
      | some pr =>
        obtain ⟨m, r⟩ := pr
        rw [h3] at h
        simp only [Option.some.injEq, Prod.mk.injEq] at h
        obtain ⟨_, _, hr⟩ := h
        subst hr
        obtain ⟨he, hne, _, _⟩ := matchValue_split h3
        rw [he]
        simpa using List.length_pos.mpr hne
      | none =>
        rw [h3] at h
        cases h4 : matchPunct ',' cs with
        | some pr =>
          obtain ⟨m, r⟩ := pr
          rw [h4] at h
          simp only [Option.some.injEq, Prod.mk.injEq] at h
          obtain ⟨_, _, hr⟩ := h
          subst hr
          obtain ⟨he, hne⟩ := matchPunct_split h4
          rw [he]
          simpa using List.length_pos.mpr hne
        | none =>
          rw [h4] at h
          cases h5 : matchPunct ';' cs with
          | some pr =>
            obtain ⟨m, r⟩ := pr
            rw [h5] at h
            simp only [Option.some.injEq, Prod.mk.injEq] at h
            obtain ⟨_, _, hr⟩ := h
            subst hr
            obtain ⟨he, hne⟩ := matchPunct_split h5
            rw [he]
            simpa using List.length_pos.mpr hne
          | none =>
            rw [h5] at h
            exact absurd h (by simp)

/-- At a nonempty position some rule always matches: `isValChar` only
rejects `!`, `,`, `;` and `\n`, and each of those characters begins a
match of `t_COMMENT`, `t_COMMA`, `t_SEMICOLON` or `t_newline`
respectively.  Hence `t_error` is unreachable. -/
theorem lexStep_total (line : Nat) (c : Char) (cs : List Char) :
    lexStep line (c :: cs) ≠ none := by
  intro h
  unfold lexStep at h
  cases h1 : matchComment (c :: cs) with
  | some pr => rw [h1] at h; obtain ⟨m, r⟩ := pr; simp at h
  | none =>
  rw [h1] at h
  cases h2 : matchNewline (c :: cs) with
  | some pr => rw [h2] at h; obtain ⟨m, r⟩ := pr; simp at h
  | none =>
  rw [h2] at h
  cases h3 : matchValue (c :: cs) with
  | some pr => rw [h3] at h; obtain ⟨m, r⟩ := pr; simp at h
  | none =>
  rw [h3] at h
  cases h4 : matchPunct ',' (c :: cs) with
  | some pr => rw [h4] at h; obtain ⟨m, r⟩ := pr; simp at h
  | none =>
  rw [h4] at h
  cases h5 : matchPunct ';' (c :: cs) with
  | some pr => rw [h5] at h; obtain ⟨m, r⟩ := pr; simp at h
  | none =>
  -- `matchValue` failing means the head character is one of `! , ; \n`.
  have hval : isValChar c = false := by
    unfold matchValue at h3
    cases hv : isValChar c with
    | false => rfl
    | true =>
      rw [List.takeWhile_cons_of_pos hv] at h3
      simp at h3
  have hcases : c = '!' ∨ c = ',' ∨ c = ';' ∨ c = '\n' := by
    simp only [isValChar, Bool.not_eq_false', Bool.or_eq_true, beq_iff_eq] at hval
    tauto
  rcases hcases with hc | hc | hc | hc
  · subst hc
    unfold matchComment at h1
    rw [List.dropWhile_cons_of_neg (by simp [isCWS])] at h1
    simp at h1
  · subst hc
    unfold matchPunct at h4
    rw [List.dropWhile_cons_of_neg (by simp [isHWS])] at h4
    simp at h4
  · subst hc
    unfold matchPunct at h5
    rw [List.dropWhile_cons_of_neg (by simp [isHWS])] at h5
    simp at h5
  · subst hc
    unfold matchNewline at h2
    rw [List.dropWhile_cons_of_neg (by simp [isHWS])] at h2
    rw [nlRun] at h2
    cases hnl : nlRun cs with
    | none => rw [hnl] at h2; simp at h2
    | some pr => obtain ⟨m, r⟩ := pr; rw [hnl] at h2; simp at h2

/-! ## Running the lexer -/

theorem tokenizeF_nil (fuel line : Nat) : tokenizeF fuel line [] = .ok [] := by
  cases fuel <;> rfl

theorem lexStep_nil (line : Nat) : lexStep line [] = none := rfl

/-- The lexer always succeeds: `t_error` is dead code. -/
theorem tokenizeF_ok (fuel : Nat) :
    ∀ line cs, ∃ ts, tokenizeF fuel line cs = .ok ts := by
  induction fuel with
  | zero =>
    intro line cs
    cases cs with
    | nil => exact ⟨[], rfl⟩
    | cons c r => exact ⟨[], rfl⟩
  | succ f ih =>
    intro line cs
    cases cs with
    | nil => exact ⟨[], rfl⟩
    | cons c r =>
      cases hstep : lexStep line (c :: r) with
      | none => exact absurd hstep (lexStep_total line c r)
      | some res =>
        obtain ⟨o, line2, rest⟩ := res
        cases o with
        | none =>
          obtain ⟨ts, hts⟩ := ih line2 rest
          exact ⟨ts, by simp [tokenizeF, hstep, hts]⟩
        | some t =>
          obtain ⟨ts, hts⟩ := ih line2 rest
          exact ⟨t :: ts, by simp [tokenizeF, hstep, hts]⟩

/-- Compose one token-producing lexer step with the tokenization of the
remaining input. -/
theorem tokenizeF_cons_tok {line : Nat} {cs : List Char} {t : Tok} {line2 : Nat}
    {rest : List Char} {ts : List Tok}
    (hstep : lexStep line cs = some (some t, line2, rest))
    (hrest : ∀ fuel, rest.length ≤ fuel → tokenizeF fuel line2 rest = .ok ts) :
    ∀ fuel, cs.length ≤ fuel → tokenizeF fuel line cs = .ok (t :: ts) := by
  intro fuel hfuel
  have hcs : cs ≠ [] := by
    intro hn
    subst hn
    rw [lexStep_nil] at hstep
    exact absurd hstep (by simp)
  obtain ⟨c, cs', rfl⟩ := List.exists_cons_of_ne_nil hcs
  have hlt : rest.length < (c :: cs').length := lexStep_shrink hstep
  cases fuel with
  | zero => simp at hfuel
  | succ f =>
    have hf : rest.length ≤ f := by
      simp only [List.length_cons] at hlt hfuel
      omega
    simp [tokenizeF, hstep, hrest f hf]

/-- Compose one discarding lexer step (comment or newline run) with the
tokenization of the remaining input. -/
theorem tokenizeF_cons_skip {line : Nat} {cs : List Char} {line2 : Nat}
    {rest : List Char} {ts : List Tok}
    (hstep : lexStep line cs = some (none, line2, rest))
    (hrest : ∀ fuel, rest.length ≤ fuel → tokenizeF fuel line2 rest = .ok ts) :
    ∀ fuel, cs.length ≤ fuel → tokenizeF fuel line cs = .ok ts := by
  intro fuel hfuel
  have hcs : cs ≠ [] := by
    intro hn
    subst hn
    rw [lexStep_nil] at hstep
    exact absurd hstep (by simp)
  obtain ⟨c, cs', rfl⟩ := List.exists_cons_of_ne_nil hcs
  have hlt : rest.length < (c :: cs').length := lexStep_shrink hstep
  cases fuel with
  | zero => simp at hfuel
  | succ f =>
    have hf : rest.length ≤ f := by
      simp only [List.length_cons] at hlt hfuel
      omega
    simp [tokenizeF, hstep, hrest f hf]

/-! ## Canonical strings -/

theorem canonStr_ne {s : String} (h : canonStr s = true) : s.data ≠ [] := by
  simp [canonStr] at h
  exact h.1.1

theorem canonStr_val {s : String} (h : canonStr s = true) :
    ∀ c ∈ s.data, isValChar c = true := by
  simp [canonStr] at h
  exact h.1.2

theorem canonStr_strip {s : String} (h : canonStr s = true) : pyStrip s = s := by
  simp [canonStr] at h
  exact h.2

/-- A string fixed by `pyStrip` does not start with whitespace. -/
theorem canonStr_head {s : String} {c : Char} {r : List Char}
    (h : canonStr s = true) (hd : s.data = c :: r) : isPyWS c = false := by
  by_contra hc
  have hc' : isPyWS c = true := by simpa using hc
  have hstrip := congrArg String.data (canonStr_strip h)
  have hlen : (pyStrip s).data.length < s.data.length := by
    show (((s.data.dropWhile isPyWS).reverse.dropWhile isPyWS).reverse).length < _
    rw [List.length_reverse]
    calc ((s.data.dropWhile isPyWS).reverse.dropWhile isPyWS).length
        ≤ (s.data.dropWhile isPyWS).reverse.length :=
          length_dropWhile_le _ _
      _ = (s.data.dropWhile isPyWS).length := List.length_reverse _
      _ < s.data.length := by
          rw [hd, List.dropWhile_cons_of_pos hc']
          have := length_dropWhile_le isPyWS r
          simp only [List.length_cons]
          omega
  rw [hstrip] at hlen
  omega

/-- All the character-class consequences of not being Python
whitespace. -/
theorem not_pyWS_facts {c : Char} (h : isPyWS c = false) :
    isCWS c = false ∧ isHWS c = false ∧ c ≠ '\n' ∧ c ≠ '\r' := by
  simp only [isPyWS, Bool.or_eq_false_iff, beq_eq_false_iff_ne, ne_eq] at h
  obtain ⟨⟨⟨⟨⟨h1, h2⟩, h3⟩, h4⟩, h5⟩, h6⟩ := h
  refine ⟨?_, ?_, h3, h4⟩ <;>
    simp [isCWS, isHWS, h1, h2, h3, h4]

theorem valChar_facts {c : Char} (h : isValChar c = true) :
    c ≠ '!' ∧ c ≠ ',' ∧ c ≠ ';' ∧ c ≠ '\n' := by
  simp only [isValChar, Bool.not_eq_true', Bool.or_eq_false_iff,
    beq_eq_false_iff_ne, ne_eq] at h
  tauto

/-! ## Rule-failure lemmas for the step computations -/

theorem matchComment_none_of_head {cs : List Char} {c : Char} {r : List Char}
    (hdw : cs.dropWhile isCWS = c :: r) (hc : c ≠ '!') : matchComment cs = none := by
  simp only [matchComment, hdw]
  split
  · rename_i r2x heq
    injection heq with h1 _
    exact absurd h1 hc
  · rfl

theorem nlRun_none_of_head {c : Char} {r : List Char}
    (h1 : c ≠ '\n') (h2 : c ≠ '\r') : nlRun (c :: r) = none := by
  rw [nlRun]
  · intro r' heq
    injection heq with hh _
    exact h1 hh
  · intro r' heq
    injection heq with hh _
    exact h2 hh

theorem matchNewline_none_of_head {cs : List Char} {c : Char} {r : List Char}
    (hdw : cs.dropWhile isHWS = c :: r) (h1 : c ≠ '\n') (h2 : c ≠ '\r') :
    matchNewline cs = none := by
  simp [matchNewline, hdw, nlRun_none_of_head h1 h2]

theorem matchValue_none_of_head {c : Char} {r : List Char}
    (hc : isValChar c = false) : matchValue (c :: r) = none := by
  have htw : (c :: r).takeWhile isValChar = [] :=
    List.takeWhile_cons_of_neg (by simp [hc])
  simp [matchValue, htw]

theorem matchPunct_none_of_head {ch : Char} {cs : List Char} {c : Char} {r : List Char}
    (hdw : cs.dropWhile isHWS = c :: r) (hc : c ≠ ch) : matchPunct ch cs = none := by
  simp [matchPunct, hdw, hc]

theorem matchValue_eq {cs m rest : List Char} (htw : cs.takeWhile isValChar = m)
    (hne : m ≠ []) (hdw : cs.dropWhile isValChar = rest) :
    matchValue cs = some (m, rest) := by
  obtain ⟨c, r, rfl⟩ := List.exists_cons_of_ne_nil hne
  simp [matchValue, htw, hdw]

/-! ## What one lexer step does on serialized text -/

/-- A canonical value at the head of the input, followed by a character
no VALUE can contain, lexes as one `VALUE` token carrying exactly that
string. -/
theorem lexStep_value {v : String} (hv : canonStr v = true) {rest : List Char}
    (hrest : ∀ c r', rest = c :: r' → isValChar c = false) (line : Nat) :
    lexStep line (v.data ++ rest) = some (some (.VALUE v line), line, rest) := by
  obtain ⟨c, r, hd⟩ : ∃ c r, v.data = c :: r := by
    cases hvd : v.data with
    | nil => exact absurd hvd (canonStr_ne hv)
    | cons c r => exact ⟨c, r, rfl⟩
  have hcval : isValChar c = true := canonStr_val hv c (by rw [hd]; simp)
  have hpy : isPyWS c = false := canonStr_head hv hd
  obtain ⟨hcws, hhws, hnl, hcr⟩ := not_pyWS_facts hpy
  obtain ⟨hbang, _, _, _⟩ := valChar_facts hcval
  have hcons : v.data ++ rest = c :: (r ++ rest) := by rw [hd]; rfl
  have hdwC : (v.data ++ rest).dropWhile isCWS = c :: (r ++ rest) := by
    rw [hcons, List.dropWhile_cons_of_neg (by simp [hcws])]
  have hdwH : (v.data ++ rest).dropWhile isHWS = c :: (r ++ rest) := by
    rw [hcons, List.dropWhile_cons_of_neg (by simp [hhws])]
  have hcomment := matchComment_none_of_head hdwC hbang
  have hnewline := matchNewline_none_of_head hdwH hnl hcr
  have htw : (v.data ++ rest).takeWhile isValChar = v.data := by
    rw [List.takeWhile_append_of_pos (canonStr_val hv)]
    cases hr : rest with
    | nil => simp
    | cons c' r' =>
      rw [List.takeWhile_cons_of_neg (by simp [hrest c' r' hr])]
      simp
  have hdw : (v.data ++ rest).dropWhile isValChar = rest := by
    rw [List.dropWhile_append_of_pos (canonStr_val hv)]
    cases hr : rest with
    | nil => rfl
    | cons c' r' =>
      rw [List.dropWhile_cons_of_neg (by simp [hrest c' r' hr])]
  have hvalue : matchValue (v.data ++ rest) = some (v.data, rest) :=
    matchValue_eq htw (canonStr_ne hv) hdw
  simp only [lexStep, hcomment, hnewline, hvalue]

/-- A comma followed by one space and then a canonical value lexes as a
`COMMA` token with text `", "`. -/
theorem lexStep_comma {w : String} (hw : canonStr w = true) (rest2 : List Char)
    (line : Nat) :
    lexStep line (',' :: ' ' :: (w.data ++ rest2)) =
      some (some (.COMMA ", " line), line, w.data ++ rest2) := by
  obtain ⟨c, r, hd⟩ : ∃ c r, w.data = c :: r := by
    cases hvd : w.data with
    | nil => exact absurd hvd (canonStr_ne hw)
    | cons c r => exact ⟨c, r, rfl⟩
  have hpy : isPyWS c = false := canonStr_head hw hd
  obtain ⟨hcws, hhws, _, _⟩ := not_pyWS_facts hpy
  have hdwC : (',' :: ' ' :: (w.data ++ rest2)).dropWhile isCWS =
      ',' :: ' ' :: (w.data ++ rest2) :=
    List.dropWhile_cons_of_neg (by decide)
  have hcomment := matchComment_none_of_head hdwC (by decide)
  have hdwH : (',' :: ' ' :: (w.data ++ rest2)).dropWhile isHWS =
      ',' :: ' ' :: (w.data ++ rest2) :=
    List.dropWhile_cons_of_neg (by decide)
  have hnewline := matchNewline_none_of_head hdwH (by decide) (by decide)
  have hvalue : matchValue (',' :: ' ' :: (w.data ++ rest2)) = none :=
    matchValue_none_of_head (by decide)
  have h2 : (' ' :: (w.data ++ rest2)).takeWhile isHWS = [' '] := by
    rw [List.takeWhile_cons_of_pos (by decide), hd, List.cons_append,
      List.takeWhile_cons_of_neg (by simp [hhws])]
  have h3 : (' ' :: (w.data ++ rest2)).dropWhile isHWS = w.data ++ rest2 := by
    rw [List.dropWhile_cons_of_pos (by decide)]
    conv_lhs => rw [hd, List.cons_append]
    rw [List.dropWhile_cons_of_neg (by simp [hhws]), hd, List.cons_append]
  have h4 : (',' :: ' ' :: (w.data ++ rest2)).takeWhile isHWS = [] :=
    List.takeWhile_cons_of_neg (by decide)
  have hcomma : matchPunct ',' (',' :: ' ' :: (w.data ++ rest2)) =
      some ([',', ' '], w.data ++ rest2) := by
    simp [matchPunct, hdwH, h2, h3, h4]
  simp only [lexStep, hcomment, hnewline, hvalue, hcomma]

/-- A semicolon at the end of the input or followed directly by a
newline lexes as a `SEMICOLON` token with text `";"`. -/
theorem lexStep_semi (line : Nat) {rest : List Char}
    (hrest : rest = [] ∨ ∃ r', rest = '\n' :: r') :
    lexStep line (';' :: rest) = some (some (.SEMICOLON ";" line), line, rest) := by
  have hdwC : (';' :: rest).dropWhile isCWS = ';' :: rest :=
    List.dropWhile_cons_of_neg (by decide)
  have hcomment := matchComment_none_of_head hdwC (by decide)
  have hdwH : (';' :: rest).dropWhile isHWS = ';' :: rest :=
    List.dropWhile_cons_of_neg (by decide)
  have hnewline := matchNewline_none_of_head hdwH (by decide) (by decide)
  have hvalue : matchValue (';' :: rest) = none :=
    matchValue_none_of_head (by decide)
  have hcomma := matchPunct_none_of_head hdwH (show ';' ≠ ',' by decide)
  have htwr : rest.takeWhile isHWS = [] := by
    rcases hrest with rfl | ⟨r', rfl⟩
    · rfl
    · exact List.takeWhile_cons_of_neg (by decide)
  have hdwr : rest.dropWhile isHWS = rest := by
    rcases hrest with rfl | ⟨r', rfl⟩
    · rfl
    · exact List.dropWhile_cons_of_neg (by decide)
  have h4 : (';' :: rest).takeWhile isHWS = [] :=
    List.takeWhile_cons_of_neg (by decide)
  have hsemi : matchPunct ';' (';' :: rest) = some ([';'], rest) := by
    simp [matchPunct, hdwH, htwr, hdwr, h4]
  simp only [lexStep, hcomment, hnewline, hvalue, hcomma, hsemi]

/-- A single newline followed by a canonical value (the next object's
name) is discarded and advances the line counter by exactly one — the
`len(t.value)` accounting is correct here because the matched text is the
one-character string `"\n"`. -/
theorem lexStep_nl {w : String} (hw : canonStr w = true) (rest2 : List Char)
    (line : Nat) :
    lexStep line ('\n' :: (w.data ++ rest2)) = some (none, line + 1, w.data ++ rest2) := by
  obtain ⟨c, r, hd⟩ : ∃ c r, w.data = c :: r := by
    cases hvd : w.data with
    | nil => exact absurd hvd (canonStr_ne hw)
    | cons c r => exact ⟨c, r, rfl⟩
  have hpy : isPyWS c = false := canonStr_head hw hd
  obtain ⟨hcws, hhws, hnl, hcr⟩ := not_pyWS_facts hpy
  have hcval : isValChar c = true := canonStr_val hw c (by rw [hd]; simp)
  obtain ⟨hbang, _, _, _⟩ := valChar_facts hcval
  have hcons : w.data ++ rest2 = c :: (r ++ rest2) := by rw [hd]; rfl
  have hdwC : ('\n' :: (w.data ++ rest2)).dropWhile isCWS = c :: (r ++ rest2) := by
    rw [List.dropWhile_cons_of_pos (by decide), hcons,
      List.dropWhile_cons_of_neg (by simp [hcws])]
  have hcomment := matchComment_none_of_head hdwC hbang
  have hn : nlRun (w.data ++ rest2) = none := by
    rw [hcons]
    exact nlRun_none_of_head hnl hcr
  have hnlrun : nlRun ('\n' :: (w.data ++ rest2)) = some (['\n'], w.data ++ rest2) := by
    rw [nlRun]
    simp [hn]
  have hdwH : ('\n' :: (w.data ++ rest2)).dropWhile isHWS = '\n' :: (w.data ++ rest2) :=
    List.dropWhile_cons_of_neg (by decide)
  have h4 : ('\n' :: (w.data ++ rest2)).takeWhile isHWS = [] :=
    List.takeWhile_cons_of_neg (by decide)
  have hnewline : matchNewline ('\n' :: (w.data ++ rest2)) =
      some (['\n'], w.data ++ rest2) := by
    simp [matchNewline, hdwH, hnlrun, h4]
  simp only [lexStep, hcomment, hnewline]
  rfl

/-! ## Serialized text at the character and token level -/

/-- Character form of `serializeFields`. -/
def fieldsChars : List String → List Char
  | [] => []
  | v :: vs => ',' :: ' ' :: (v.data ++ fieldsChars vs)

/-- Character form of `serializeObject`. -/
def objChars : IdfObject → List Char
  | [] => [';']
  | n :: vs => n.data ++ (fieldsChars vs ++ [';'])

/-- Character form of `serializeDoc` applied to an object list. -/
def docChars : List IdfObject → List Char
  | [] => []
  | [o] => objChars o
  | o :: rest => objChars o ++ '\n' :: docChars rest

theorem serializeFields_data (vs : List String) :
    (serializeFields vs).data = fieldsChars vs := by
  induction vs with
  | nil => rfl
  | cons v vs ih =>
    show (", " ++ v ++ serializeFields vs).data = _
    rw [String.data_append, String.data_append, ih]
    rfl

theorem serializeObject_data (o : IdfObject) :
    (serializeObject o).data = objChars o := by
  cases o with
  | nil => rfl
  | cons n vs =>
    show (n ++ serializeFields vs ++ ";").data = _
    rw [String.data_append, String.data_append, serializeFields_data]
    simp [objChars]

theorem joinNL_map_data (os : List IdfObject) :
    (joinNL (os.map serializeObject)).data = docChars os := by
  induction os with
  | nil => rfl
  | cons o rest ih =>
    cases rest with
    | nil => simp [joinNL, docChars, serializeObject_data]
    | cons o2 rest2 =>
      show (serializeObject o ++ "\n" ++ joinNL ((o2 :: rest2).map serializeObject)).data = _
      rw [String.data_append, String.data_append, ih, serializeObject_data]
      simp [docChars]

theorem serializeDoc_data (doc : Document) :
    (serializeDoc doc).data = docChars (docObjects doc) :=
  joinNL_map_data (docObjects doc)

/-- The token stream of one serialized field list (the `", " ++ v`
pieces). -/
def fieldsToks (line : Nat) : List String → List Tok
  | [] => []
  | v :: vs => .COMMA ", " line :: .VALUE v line :: fieldsToks line vs

/-- The token stream of one serialized object. -/
def objToks (line : Nat) : IdfObject → List Tok
  | [] => [.SEMICOLON ";" line]
  | n :: vs => .VALUE n line :: (fieldsToks line vs ++ [.SEMICOLON ";" line])

/-- The token stream of a serialized object list, one object per line. -/
def docToks (line : Nat) : List IdfObject → List Tok
  | [] => []
  | [o] => objToks line o
  | o :: rest => objToks line o ++ docToks (line + 1) rest

/-- Tokenizing the serialized fields followed by the object's terminator:
each field lexes as `COMMA` then `VALUE`, and the continuation handles
everything from the `';'`. -/
theorem tok_fields (vs : List String) :
    ∀ (line : Nat) (rest : List Char) (ts : List Tok),
      (∀ v ∈ vs, canonStr v = true) →
      (∀ c r', rest = c :: r' → isValChar c = false) →
      rest ≠ [] →
      (∀ fuel, rest.length ≤ fuel → tokenizeF fuel line rest = .ok ts) →
      ∀ fuel, (fieldsChars vs ++ rest).length ≤ fuel →
        tokenizeF fuel line (fieldsChars vs ++ rest) = .ok (fieldsToks line vs ++ ts) := by
  induction vs with
  | nil =>
    intro line rest ts _ _ _ hcont fuel hfuel
    simpa [fieldsChars, fieldsToks] using hcont fuel (by simpa [fieldsChars] using hfuel)
  | cons v vs ih =>
    intro line rest ts hcanon hrest hrne hcont fuel hfuel
    have hv : canonStr v = true := hcanon v (by simp)
    have hchars : fieldsChars (v :: vs) ++ rest =
        ',' :: ' ' :: (v.data ++ (fieldsChars vs ++ rest)) := by
      simp [fieldsChars]
    have hafter : ∀ c r', fieldsChars vs ++ rest = c :: r' → isValChar c = false := by
      intro c r' heq
      cases vs with
      | nil =>
        simp only [fieldsChars, List.nil_append] at heq
        exact hrest c r' heq
      | cons w ws =>
        simp only [fieldsChars, List.cons_append] at heq
        cases heq
        decide
    have hinner : ∀ fuel, (fieldsChars vs ++ rest).length ≤ fuel →
        tokenizeF fuel line (fieldsChars vs ++ rest) = .ok (fieldsToks line vs ++ ts) :=
      ih line rest ts (fun w hw => hcanon w (by simp [hw])) hrest hrne hcont
    have hvalstep : ∀ fuel, (v.data ++ (fieldsChars vs ++ rest)).length ≤ fuel →
        tokenizeF fuel line (v.data ++ (fieldsChars vs ++ rest)) =
          .ok (.VALUE v line :: (fieldsToks line vs ++ ts)) :=
      tokenizeF_cons_tok (lexStep_value hv hafter line) hinner
    have hcommastep :
        ∀ fuel, (',' :: ' ' :: (v.data ++ (fieldsChars vs ++ rest))).length ≤ fuel →
          tokenizeF fuel line (',' :: ' ' :: (v.data ++ (fieldsChars vs ++ rest))) =
            .ok (.COMMA ", " line :: .VALUE v line :: (fieldsToks line vs ++ ts)) :=
      tokenizeF_cons_tok (lexStep_comma hv (fieldsChars vs ++ rest) line) hvalstep
    rw [hchars]
    simp only [fieldsToks, List.cons_append]
    exact hcommastep fuel (by rw [hchars] at hfuel; exact hfuel)

/-- Tokenizing one serialized object followed by a continuation that is
either empty or starts at a newline. -/
theorem tok_obj (n : String) (vs : List String) (line : Nat) (rest : List Char)
    (ts : List Tok) (hn : canonStr n = true) (hvs : ∀ v ∈ vs, canonStr v = true)
    (hrest : rest = [] ∨ ∃ r', rest = '\n' :: r')
    (hcont : ∀ fuel, rest.length ≤ fuel → tokenizeF fuel line rest = .ok ts) :
    ∀ fuel, (objChars (n :: vs) ++ rest).length ≤ fuel →
      tokenizeF fuel line (objChars (n :: vs) ++ rest) =
        .ok (objToks line (n :: vs) ++ ts) := by
  intro fuel hfuel
  have hsemicont : ∀ fuel, (';' :: rest).length ≤ fuel →
      tokenizeF fuel line (';' :: rest) = .ok (.SEMICOLON ";" line :: ts) :=
    tokenizeF_cons_tok (lexStep_semi line hrest) hcont
  have hfieldscont : ∀ fuel, (fieldsChars vs ++ (';' :: rest)).length ≤ fuel →
      tokenizeF fuel line (fieldsChars vs ++ (';' :: rest)) =
        .ok (fieldsToks line vs ++ (.SEMICOLON ";" line :: ts)) :=
    tok_fields vs line (';' :: rest) (.SEMICOLON ";" line :: ts) hvs
      (fun c r' heq => by cases heq; decide) (by simp) hsemicont
  have hafter : ∀ c r', fieldsChars vs ++ (';' :: rest) = c :: r' →
      isValChar c = false := by
    intro c r' heq
    cases vs with
    | nil =>
      simp only [fieldsChars, List.nil_append] at heq
      cases heq
      decide
    | cons w ws =>
      simp only [fieldsChars, List.cons_append] at heq
      cases heq
      decide
  have hvalstep : ∀ fuel, (n.data ++ (fieldsChars vs ++ (';' :: rest))).length ≤ fuel →
      tokenizeF fuel line (n.data ++ (fieldsChars vs ++ (';' :: rest))) =
        .ok (.VALUE n line :: (fieldsToks line vs ++ (.SEMICOLON ";" line :: ts))) :=
    tokenizeF_cons_tok (lexStep_value hn hafter line) hfieldscont
  have hchars : objChars (n :: vs) ++ rest = n.data ++ (fieldsChars vs ++ (';' :: rest)) := by
    simp [objChars]
  have htoks : objToks line (n :: vs) ++ ts =
      .VALUE n line :: (fieldsToks line vs ++ (.SEMICOLON ";" line :: ts)) := by
    simp [objToks]
  rw [hchars, htoks]
  exact hvalstep fuel (by rw [hchars] at hfuel; exact hfuel)

/-- Tokenizing a whole serialized object list: object `i` (0-based) is
lexed at line `line + i`, each `"\n"` separator advancing the counter by
exactly one. -/
theorem tok_doc (os : List IdfObject) :
    ∀ line : Nat,
      (∀ o ∈ os, ∃ n vs, o = n :: vs ∧ canonStr n = true ∧
        ∀ v ∈ vs, canonStr v = true) →
      ∀ fuel, (docChars os).length ≤ fuel →
        tokenizeF fuel line (docChars os) = .ok (docToks line os) := by
  induction os with
  | nil =>
    intro line _ fuel _
    simp [docChars, docToks, tokenizeF_nil]
  | cons o rest ih =>
    intro line hcanon fuel hfuel
    obtain ⟨n, vs, rfl, hn, hvs⟩ := hcanon o (by simp)
    cases rest with
    | nil =>
      have hobj := tok_obj n vs line [] [] hn hvs (Or.inl rfl)
        (fun fuel _ => tokenizeF_nil fuel line)
      have hchars : docChars [(n :: vs)] = objChars (n :: vs) ++ [] := by
        simp [docChars]
      have htoks : docToks line [(n :: vs)] = objToks line (n :: vs) ++ [] := by
        simp [docToks]
      rw [hchars, htoks]
      exact hobj fuel (by rw [hchars] at hfuel; exact hfuel)
    | cons o2 rest2 =>
      obtain ⟨n2, vs2, rfl, hn2, hvs2⟩ := hcanon o2 (by simp)
      have hinner : ∀ fuel, (docChars ((n2 :: vs2) :: rest2)).length ≤ fuel →
          tokenizeF fuel (line + 1) (docChars ((n2 :: vs2) :: rest2)) =
            .ok (docToks (line + 1) ((n2 :: vs2) :: rest2)) :=
        fun fuel hf => ih (line + 1) (fun o' ho' => hcanon o' (by simp [ho'])) fuel hf
      obtain ⟨X, hX⟩ : ∃ X, docChars ((n2 :: vs2) :: rest2) = n2.data ++ X := by
        cases rest2 with
        | nil => exact ⟨fieldsChars vs2 ++ [';'], by simp [docChars, objChars]⟩
        | cons o3 r3 =>
          exact ⟨(fieldsChars vs2 ++ [';']) ++ '\n' :: docChars (o3 :: r3),
            by simp [docChars, objChars]⟩
      have hinner2 : ∀ fuel, (n2.data ++ X).length ≤ fuel →
          tokenizeF fuel (line + 1) (n2.data ++ X) =
            .ok (docToks (line + 1) ((n2 :: vs2) :: rest2)) := by
        rw [← hX]
        exact hinner
      have hnlcont : ∀ fuel, ('\n' :: docChars ((n2 :: vs2) :: rest2)).length ≤ fuel →
          tokenizeF fuel line ('\n' :: docChars ((n2 :: vs2) :: rest2)) =
            .ok (docToks (line + 1) ((n2 :: vs2) :: rest2)) := by
        rw [hX]
        exact tokenizeF_cons_skip (lexStep_nl hn2 X line) hinner2
      have hobj := tok_obj n vs line ('\n' :: docChars ((n2 :: vs2) :: rest2))
        (docToks (line + 1) ((n2 :: vs2) :: rest2)) hn hvs
        (Or.inr ⟨docChars ((n2 :: vs2) :: rest2), rfl⟩) hnlcont
      have hchars : docChars ((n :: vs) :: (n2 :: vs2) :: rest2) =
          objChars (n :: vs) ++ ('\n' :: docChars ((n2 :: vs2) :: rest2)) := by
        simp [docChars]
      have htoks : docToks line ((n :: vs) :: (n2 :: vs2) :: rest2) =
          objToks line (n :: vs) ++ docToks (line + 1) ((n2 :: vs2) :: rest2) := by
        simp [docToks]
      rw [hchars, htoks]
      exact hobj fuel (by rw [hchars] at hfuel; exact hfuel)

/-! ## Parsing the token stream of serialized text -/

theorem parseVL_toks (vs : List String) :
    ∀ (v : String) (line : Nat) (more : List Tok),
      parseValuelist (.VALUE v line :: (fieldsToks line vs ++ (.SEMICOLON ";" line :: more))) =
        .ok (pyStrip v :: vs.map pyStrip, .SEMICOLON ";" line :: more) := by
  induction vs with
  | nil =>
    intro v line more
    simp [fieldsToks, parseValuelist]
  | cons w ws ih =>
    intro v line more
    simp only [fieldsToks, List.cons_append]
    simp [parseValuelist, ih w line more]

theorem parseObj_toks (n : String) (vs : List String) (line : Nat) (more : List Tok) :
    parseObject (objToks line (n :: vs) ++ more) =
      .ok (pyStrip n :: vs.map pyStrip, more) := by
  cases vs with
  | nil => simp [objToks, fieldsToks, parseObject]
  | cons w ws =>
    simp only [objToks, fieldsToks, List.cons_append, List.append_assoc,
      List.singleton_append]
    simp [parseObject, parseVL_toks ws w line more]

theorem objToks_length_pos (line : Nat) (o : IdfObject) :
    1 ≤ (objToks line o).length := by
  cases o <;> simp [objToks]

theorem docToks_length (line : Nat) (os : List IdfObject) :
    os.length ≤ (docToks line os).length := by
  induction os generalizing line with
  | nil => simp [docToks]
  | cons o rest ih =>
    cases rest with
    | nil =>
      have := objToks_length_pos line o
      simpa [docToks] using this
    | cons o2 r2 =>
      simp only [docToks, List.length_append, List.length_cons]
      have h1 := ih (line + 1)
      have h2 := objToks_length_pos line o
      simp only [List.length_cons] at h1
      omega

theorem parseOL_toks (os : List IdfObject) :
    ∀ (line fuel : Nat), (∀ o ∈ os, o ≠ []) → os ≠ [] → os.length ≤ fuel →
      parseObjectListF fuel (docToks line os) = .ok (os.map (List.map pyStrip)) := by
  induction os with
  | nil => intro _ _ _ h _; exact absurd rfl h
  | cons o rest ih =>
    intro line fuel hne _ hfuel
    obtain ⟨n, vs, rfl⟩ : ∃ n vs, o = n :: vs := by
      cases o with
      | nil => exact absurd rfl (hne [] (by simp))
      | cons a b => exact ⟨a, b, rfl⟩
    cases fuel with
    | zero => simp at hfuel
    | succ f =>
      cases rest with
      | nil =>
        have hobj : parseObject (docToks line [n :: vs]) =
            .ok (pyStrip n :: vs.map pyStrip, []) := by
          have h := parseObj_toks n vs line []
          simpa [docToks] using h
        simp [parseObjectListF, hobj]
      | cons o2 r2 =>
        obtain ⟨n2, vs2, rfl⟩ : ∃ a b, o2 = a :: b := by
          cases o2 with
          | nil => exact absurd rfl (hne [] (by simp))
          | cons a b => exact ⟨a, b, rfl⟩
        have hsplit : docToks line ((n :: vs) :: (n2 :: vs2) :: r2) =
            objToks line (n :: vs) ++ docToks (line + 1) ((n2 :: vs2) :: r2) := by
          simp [docToks]
        have hobj := parseObj_toks n vs line (docToks (line + 1) ((n2 :: vs2) :: r2))
        obtain ⟨t, r, hcons⟩ : ∃ t r, docToks (line + 1) ((n2 :: vs2) :: r2) = t :: r := by
          cases r2 with
          | nil => exact ⟨_, _, rfl⟩
          | cons o3 r3 => exact ⟨_, _, rfl⟩
        have hrec := ih (line + 1) f (fun o' ho' => hne o' (by simp [ho']))
          (by simp) (by simp only [List.length_cons] at hfuel ⊢; omega)
        rw [hsplit]
        rw [hcons] at hobj hrec
        rw [hcons]
        simp [parseObjectListF, hobj, hrec]

/-! ## Properties of `pyStrip` -/

/-- Left half of `str.strip()`. -/
def pyStripL (l : List Char) : List Char := l.dropWhile isPyWS

/-- Right half of `str.strip()`. -/
def pyStripR (l : List Char) : List Char := (l.reverse.dropWhile isPyWS).reverse

theorem pyStrip_eq (s : String) : pyStrip s = ⟨pyStripR (pyStripL s.data)⟩ := rfl

theorem dropWhile_idem (p : Char → Bool) (l : List Char) :
    (l.dropWhile p).dropWhile p = l.dropWhile p := by
  cases h : l.dropWhile p with
  | nil => rfl
  | cons c r => rw [List.dropWhile_cons_of_neg (by simp [dropWhile_head_neg h])]

theorem pyStripR_cons_neg {c : Char} (hc : isPyWS c = false) (r : List Char) :
    pyStripR (c :: r) = c :: pyStripR r := by
  unfold pyStripR
  rw [List.reverse_cons, List.dropWhile_append]
  by_cases hre : (r.reverse.dropWhile isPyWS).isEmpty
  · rw [if_pos hre]
    have hnil : r.reverse.dropWhile isPyWS = [] := by
      simpa [List.isEmpty_iff] using hre
    have h1 : List.dropWhile isPyWS [c] = [c] :=
      List.dropWhile_cons_of_neg (by simp [hc])
    rw [h1, hnil]
    simp
  · rw [if_neg hre]
    simp

theorem pyStripR_idem (l : List Char) : pyStripR (pyStripR l) = pyStripR l := by
  unfold pyStripR
  rw [List.reverse_reverse, dropWhile_idem]

theorem pyStripL_pyStripR {l : List Char} (h : pyStripL l = l) :
    pyStripL (pyStripR l) = pyStripR l := by
  cases l with
  | nil => simp [pyStripL, pyStripR]
  | cons c r =>
    have hc : isPyWS c = false := by
      by_contra hcc
      have hcc' : isPyWS c = true := by simpa using hcc
      unfold pyStripL at h
      rw [List.dropWhile_cons_of_pos hcc'] at h
      have h1 := length_dropWhile_le isPyWS r
      have h2 := congrArg List.length h
      simp only [List.length_cons] at h2
      omega
    rw [pyStripR_cons_neg hc]
    unfold pyStripL
    rw [List.dropWhile_cons_of_neg (by simp [hc])]

theorem pyStrip_idem (s : String) : pyStrip (pyStrip s) = pyStrip s := by
  rw [pyStrip_eq, pyStrip_eq]
  congr 1
  show pyStripR (pyStripL (pyStripR (pyStripL s.data))) = pyStripR (pyStripL s.data)
  have hA : pyStripL (pyStripL s.data) = pyStripL s.data := dropWhile_idem isPyWS s.data
  rw [pyStripL_pyStripR hA, pyStripR_idem]

theorem mem_pyStrip {s : String} {c : Char} (h : c ∈ (pyStrip s).data) : c ∈ s.data := by
  rw [pyStrip_eq] at h
  have h0 : c ∈ pyStripR (pyStripL s.data) := h
  unfold pyStripR pyStripL at h0
  have h1 := List.mem_reverse.mp h0
  have h2 := mem_of_mem_dropWhile h1
  have h3 := List.mem_reverse.mp h2
  exact mem_of_mem_dropWhile h3

/-- A nonempty stripped all-VALUE-character string is canonical. -/
theorem canonStr_mk {t : String} (ht : ∀ c ∈ t.data, isValChar c = true)
    (hne : (pyStrip t).data ≠ []) : canonStr (pyStrip t) = true := by
  simp only [canonStr, Bool.and_eq_true, beq_iff_eq]
  refine ⟨⟨?_, ?_⟩, pyStrip_idem t⟩
  · simpa [List.isEmpty_iff] using hne
  · rw [List.all_eq_true]
    intro c hc
    exact ht c (mem_pyStrip hc)

/-! ## Parser invariants: every component of every parsed object is the
strip of some `VALUE` token's text -/

theorem parseValuelist_inv {toks : List Tok} {vs : List String} {rest : List Tok}
    (h : parseValuelist toks = .ok (vs, rest)) :
    (∀ v ∈ vs, ∃ s l, Tok.VALUE s l ∈ toks ∧ v = pyStrip s) ∧
      (∀ t ∈ rest, t ∈ toks) := by
  induction toks using parseValuelist.induct generalizing vs rest with
  | case1 v line text line2 rest0 vs0 rest2 hrec ih =>
    simp only [parseValuelist, hrec, Except.ok.injEq, Prod.mk.injEq] at h
    obtain ⟨hvs, hrest⟩ := h
    obtain ⟨ih1, ih2⟩ := ih hrec
    subst hvs hrest
    constructor
    · intro w hw
      rcases List.mem_cons.mp hw with rfl | hw2
      · exact ⟨v, line, by simp, rfl⟩
      · obtain ⟨s, l, hmem, hws⟩ := ih1 w hw2
        exact ⟨s, l, by simp [hmem], hws⟩
    · intro t ht
      have := ih2 t ht
      simp [this]
  | case2 v line text line2 rest0 e hrec ih =>
    simp only [parseValuelist, hrec] at h
    simp at h
  | case3 v line rest0 hnc =>
    rw [parseValuelist] at h
    · injection h with h1
      injection h1 with hvs hrest
      subst hvs hrest
      exact ⟨fun w hw => ⟨v, line, by simp, by simpa using hw⟩,
        fun t ht => by simp [ht]⟩
    · exact hnc
  | case4 => simp [parseValuelist] at h
  | case5 t tail h1 h2 =>
    rw [parseValuelist] at h
    · simp at h
    · exact h1
    · exact h2

theorem parseObject_inv {toks : List Tok} {obj : IdfObject} {rest : List Tok}
    (h : parseObject toks = .ok (obj, rest)) :
    obj ≠ [] ∧ (∀ v ∈ obj, ∃ s l, Tok.VALUE s l ∈ toks ∧ v = pyStrip s) ∧
      (∀ t ∈ rest, t ∈ toks) := by
  cases toks with
  | nil => simp [parseObject] at h
  | cons t1 tl =>
    cases t1 with
    | COMMA s1 l1 => simp [parseObject] at h
    | SEMICOLON s1 l1 => simp [parseObject] at h
    | VALUE v l =>
      cases tl with
      | nil => simp [parseObject] at h
      | cons t2 tl2 =>
        cases t2 with
        | VALUE v2 l2 => simp [parseObject] at h
        | SEMICOLON s2 l2 =>
          simp only [parseObject, Except.ok.injEq, Prod.mk.injEq] at h
          obtain ⟨hobj, hrest⟩ := h
          subst hobj hrest
          refine ⟨by simp, ?_, ?_⟩
          · intro w hw
            exact ⟨v, l, by simp, by simpa using hw⟩
          · intro t ht
            simp [ht]
        | COMMA s2 l2 =>
          cases hvl : parseValuelist tl2 with
          | error e => simp [parseObject, hvl] at h
          | ok pr =>
            obtain ⟨vs, rest2⟩ := pr
            cases rest2 with
            | nil => simp [parseObject, hvl] at h
            | cons t3 tl3 =>
              cases t3 with
              | VALUE v3 l3 => simp [parseObject, hvl] at h
              | COMMA s3 l3 => simp [parseObject, hvl] at h
              | SEMICOLON s3 l3 =>
                simp only [parseObject, hvl, Except.ok.injEq, Prod.mk.injEq] at h
                obtain ⟨hobj, hrest⟩ := h
                obtain ⟨hvl1, hvl2⟩ := parseValuelist_inv hvl
                subst hobj hrest
                refine ⟨by simp, ?_, ?_⟩
                · intro w hw
                  rcases List.mem_cons.mp hw with rfl | hw2
                  · exact ⟨v, l, by simp, rfl⟩
                  · obtain ⟨s, l4, hmem, hws⟩ := hvl1 w hw2
                    exact ⟨s, l4, by simp [hmem], hws⟩
                · intro t ht
                  have h2 : t ∈ Tok.SEMICOLON s3 l3 :: tl3 := by simp [ht]
                  have := hvl2 t h2
                  simp [this]

theorem parseObjectListF_inv :
    ∀ (fuel : Nat) (toks : List Tok) (objs : List IdfObject),
      parseObjectListF fuel toks = .ok objs →
      ∀ o ∈ objs, o ≠ [] ∧ ∀ v ∈ o, ∃ s l, Tok.VALUE s l ∈ toks ∧ v = pyStrip s := by
  intro fuel
  induction fuel with
  | zero =>
    intro toks objs h o ho
    simp only [parseObjectListF, Except.ok.injEq] at h
    subst h
    simp at ho
  | succ f ih =>
    intro toks objs h o ho
    cases hobj : parseObject toks with
    | error e => simp [parseObjectListF, hobj] at h
    | ok pr =>
      obtain ⟨obj1, rest⟩ := pr
      obtain ⟨hne, hcomp, hsub⟩ := parseObject_inv hobj
      cases rest with
      | nil =>
        simp only [parseObjectListF, hobj, Except.ok.injEq] at h
        subst h
        rcases List.mem_singleton.mp ho with rfl
        exact ⟨hne, hcomp⟩
      | cons t r =>
        cases hrec : parseObjectListF f (t :: r) with
        | error e => simp [parseObjectListF, hobj, hrec] at h
        | ok objs2 =>
          simp only [parseObjectListF, hobj, hrec, Except.ok.injEq] at h
          subst h
          rcases List.mem_cons.mp ho with rfl | ho2
          · exact ⟨hne, hcomp⟩
          · obtain ⟨hne2, hcomp2⟩ := ih (t :: r) objs2 hrec o ho2
            refine ⟨hne2, ?_⟩
            intro w hw
            obtain ⟨s, l, hmem, hws⟩ := hcomp2 w hw
            exact ⟨s, l, hsub _ hmem, hws⟩

/-! ## Lexer invariant: VALUE token text consists of VALUE characters -/

theorem lexStep_value_inv {line : Nat} {cs : List Char} {t : Tok} {line2 : Nat}
    {rest : List Char} (h : lexStep line cs = some (some t, line2, rest)) :
    ∀ s l, t = Tok.VALUE s l → ∀ c ∈ s.data, isValChar c = true := by
  intro s l ht c hc
  subst ht
  unfold lexStep at h
  cases h1 : matchComment cs with
  | some pr =>
    obtain ⟨m, r⟩ := pr
    rw [h1] at h
    simp at h
  | none =>
  rw [h1] at h
  cases h2 : matchNewline cs with
  | some pr =>
    obtain ⟨m, r⟩ := pr
    rw [h2] at h
    simp at h
  | none =>
  rw [h2] at h
  cases h3 : matchValue cs with
  | some pr =>
    obtain ⟨m, r⟩ := pr
    rw [h3] at h
    simp only [Option.some.injEq, Prod.mk.injEq, Tok.VALUE.injEq] at h
    obtain ⟨⟨hs, _⟩, _, _⟩ := h
    obtain ⟨_, _, hm, _⟩ := matchValue_split h3
    have hcm : c ∈ m := by rw [← hs] at hc; exact hc
    rw [hm] at hcm
    exact List.mem_takeWhile_imp hcm
  | none =>
  rw [h3] at h
  cases h4 : matchPunct ',' cs with
  | some pr =>
    obtain ⟨m, r⟩ := pr
    rw [h4] at h
    simp at h
  | none =>
  rw [h4] at h
  cases h5 : matchPunct ';' cs with
  | some pr =>
    obtain ⟨m, r⟩ := pr
    rw [h5] at h
    simp at h
  | none =>
  rw [h5] at h
  simp at h

theorem tokenizeF_value_inv :
    ∀ (fuel line : Nat) (cs : List Char) (toks : List Tok),
      tokenizeF fuel line cs = .ok toks →
      ∀ s l, Tok.VALUE s l ∈ toks → ∀ c ∈ s.data, isValChar c = true := by
  intro fuel
  induction fuel with
  | zero =>
    intro line cs toks h s l hmem
    cases cs with
    | nil =>
      simp only [tokenizeF, Except.ok.injEq] at h
      subst h
      simp at hmem
    | cons c r =>
      simp only [tokenizeF, Except.ok.injEq] at h
      subst h
      simp at hmem
  | succ f ih =>
    intro line cs toks h s l hmem
    cases cs with
    | nil =>
      simp only [tokenizeF, Except.ok.injEq] at h
      subst h
      simp at hmem
    | cons c r =>
      cases hstep : lexStep line (c :: r) with
      | none => simp [tokenizeF, hstep] at h
      | some res =>
        obtain ⟨o, line2, rest⟩ := res
        cases o with
        | none =>
          simp only [tokenizeF, hstep] at h
          exact ih line2 rest toks h s l hmem
        | some t =>
          cases hrec : tokenizeF f line2 rest with
          | error e => simp [tokenizeF, hstep, hrec] at h
          | ok ts =>
            simp only [tokenizeF, hstep, hrec, Except.ok.injEq] at h
            subst h
            rcases List.mem_cons.mp hmem with heq | hmem2
            · exact lexStep_value_inv hstep s l heq.symm
            · exact ih line2 rest ts hrec s l hmem2

/-! ## The aggregation fold -/

/-- One fold step of `p_idffile`. -/
def aggStep (doc : Document) (obj : IdfObject) : Document :=
  addObject doc (aggKey obj) obj

theorem p_idffile_foldl (objs : List IdfObject) :
    p_idffile objs = objs.foldl aggStep [] := rfl

theorem addObject_not_mem {doc : Document} {key : String}
    (h : ∀ kv ∈ doc, kv.1 ≠ key) (obj : IdfObject) :
    addObject doc key obj = doc ++ [(key, [obj])] := by
  induction doc with
  | nil => rfl
  | cons kv rest ih =>
    obtain ⟨k, objs⟩ := kv
    have hk : k ≠ key := h (k, objs) (by simp)
    simp only [addObject, if_neg hk]
    rw [ih (fun kv hkv => h kv (by simp [hkv]))]
    simp

theorem addObject_snoc {acc : Document} {key : String}
    (h : ∀ kv ∈ acc, kv.1 ≠ key) (os : List IdfObject) (obj : IdfObject) :
    addObject (acc ++ [(key, os)]) key obj = acc ++ [(key, os ++ [obj])] := by
  induction acc with
  | nil => simp [addObject]
  | cons kv rest ih =>
    obtain ⟨k, objs⟩ := kv
    have hk : k ≠ key := h (k, objs) (by simp)
    simp only [List.cons_append, addObject, if_neg hk, List.append_eq]
    rw [ih (fun kv hkv => h kv (by simp [hkv]))]

theorem foldl_group {key : String} (g : List IdfObject) :
    ∀ (acc : Document) (os : List IdfObject),
      (∀ o ∈ g, aggKey o = key) → (∀ kv ∈ acc, kv.1 ≠ key) →
      List.foldl aggStep (acc ++ [(key, os)]) g = acc ++ [(key, os ++ g)] := by
  induction g with
  | nil =>
    intro acc os _ _
    simp
  | cons o g' ih =>
    intro acc os hg hacc
    have hko : aggKey o = key := hg o (by simp)
    have hstep : aggStep (acc ++ [(key, os)]) o = acc ++ [(key, os ++ [o])] := by
      unfold aggStep
      rw [hko]
      exact addObject_snoc hacc os o
    simp only [List.foldl_cons, hstep]
    rw [ih acc (os ++ [o]) (fun o' ho' => hg o' (by simp [ho'])) hacc]
    simp

/-- Re-aggregating the flattened objects of a well-formed document
reproduces the document. -/
theorem foldl_doc (D : Document) :
    ∀ acc : Document,
      (∀ kv ∈ D, kv.2 ≠ []) →
      (∀ kv ∈ D, ∀ o ∈ kv.2, aggKey o = kv.1) →
      List.Pairwise (fun a b => a.1 ≠ b.1) D →
      (∀ kv ∈ acc, ∀ kv2 ∈ D, kv.1 ≠ kv2.1) →
      List.foldl aggStep acc (docObjects D) = acc ++ D := by
  induction D with
  | nil =>
    intro acc _ _ _ _
    simp [docObjects]
  | cons kv rest ih =>
    intro acc hne hkey hpw hdisj
    obtain ⟨k, g⟩ := kv
    obtain ⟨o0, g', rfl⟩ : ∃ o0 g', g = o0 :: g' := by
      have hgne : g ≠ [] := hne (k, g) (by simp)
      cases g with
      | nil => exact absurd rfl hgne
      | cons a b => exact ⟨a, b, rfl⟩
    have hgkeys : ∀ o ∈ o0 :: g', aggKey o = k := hkey (k, o0 :: g') (by simp)
    have hacck : ∀ kv ∈ acc, kv.1 ≠ k := fun kv hkv => hdisj kv hkv (k, o0 :: g') (by simp)
    have hflat : docObjects ((k, o0 :: g') :: rest) = (o0 :: g') ++ docObjects rest := rfl
    rw [hflat, List.foldl_append]
    have hfirst : List.foldl aggStep acc (o0 :: g') = acc ++ [(k, o0 :: g')] := by
      have hstep : aggStep acc o0 = acc ++ [(k, [o0])] := by
        unfold aggStep
        rw [hgkeys o0 (by simp)]
        exact addObject_not_mem hacck o0
      simp only [List.foldl_cons, hstep]
      exact foldl_group g' acc [o0] (fun o' ho' => hgkeys o' (by simp [ho'])) hacck
    rw [hfirst]
    have hpw' := List.pairwise_cons.mp hpw
    rw [ih (acc ++ [(k, o0 :: g')])
      (fun kv hkv => hne kv (by simp [hkv]))
      (fun kv hkv => hkey kv (by simp [hkv]))
      hpw'.2
      ?_]
    · simp
    · intro kv hkv kv2 hkv2
      rcases List.mem_append.mp hkv with hkv1 | hkv1
      · exact hdisj kv hkv1 kv2 (by simp [hkv2])
      · rcases List.mem_singleton.mp hkv1 with rfl
        exact hpw'.1 kv2 hkv2

/-! ## Characterization of the aggregation: `p_idffile` computes
`aggSpec` -/

theorem insKeys_aux_mem (ks : List String) :
    ∀ (acc : List String) (k : String),
      k ∈ ks.foldl (fun acc k => if k ∈ acc then acc else acc ++ [k]) acc ↔
        k ∈ acc ∨ k ∈ ks := by
  induction ks with
  | nil => intro acc k; simp
  | cons k1 kr ih =>
    intro acc k
    simp only [List.foldl_cons]
    rw [ih]
    by_cases h1 : k1 ∈ acc
    · rw [if_pos h1]
      constructor
      · rintro (h | h) <;> simp [h]
      · rintro (h | h)
        · exact Or.inl h
        · rcases List.mem_cons.mp h with rfl | h2
          · exact Or.inl h1
          · exact Or.inr h2
    · rw [if_neg h1]
      constructor
      · rintro (h | h)
        · rcases List.mem_append.mp h with h2 | h2
          · exact Or.inl h2
          · rcases List.mem_singleton.mp h2 with rfl
            simp
        · simp [h]
      · rintro (h | h)
        · exact Or.inl (by simp [h])
        · rcases List.mem_cons.mp h with rfl | h2
          · exact Or.inl (by simp)
          · exact Or.inr h2

theorem mem_insKeys {ks : List String} {k : String} :
    k ∈ insKeys ks ↔ k ∈ ks := by
  unfold insKeys
  rw [insKeys_aux_mem ks [] k]
  simp

theorem insKeys_aux_nodup (ks : List String) :
    ∀ acc : List String, acc.Nodup →
      (ks.foldl (fun acc k => if k ∈ acc then acc else acc ++ [k]) acc).Nodup := by
  induction ks with
  | nil => intro acc h; simpa
  | cons k1 kr ih =>
    intro acc h
    simp only [List.foldl_cons]
    by_cases h1 : k1 ∈ acc
    · rw [if_pos h1]; exact ih acc h
    · rw [if_neg h1]
      refine ih (acc ++ [k1]) ?_
      rw [List.nodup_append]
      refine ⟨h, by simp, ?_⟩
      intro a ha hb
      rw [List.mem_singleton] at hb
      subst hb
      exact h1 ha

theorem insKeys_nodup (ks : List String) : (insKeys ks).Nodup :=
  insKeys_aux_nodup ks [] (by simp)

theorem insKeys_snoc (ks : List String) (k : String) :
    insKeys (ks ++ [k]) =
      if k ∈ insKeys ks then insKeys ks else insKeys ks ++ [k] := by
  unfold insKeys
  rw [List.foldl_append]
  rfl

theorem addObject_of_mem (L : Document) (k : String) (o : IdfObject)
    (hnd : (L.map Prod.fst).Nodup) (hmem : k ∈ L.map Prod.fst) :
    addObject L k o = L.map (fun kv => if kv.1 = k then (kv.1, kv.2 ++ [o]) else kv) := by
  induction L with
  | nil => simp at hmem
  | cons kv rest ih =>
    obtain ⟨k1, g1⟩ := kv
    rw [List.map_cons, List.nodup_cons] at hnd
    by_cases hk : k1 = k
    · subst hk
      simp only [addObject, if_pos rfl]
      have hrest : ∀ kv ∈ rest, kv.1 ≠ k1 := by
        intro kv hkv heq
        apply hnd.1
        have hh : kv.1 ∈ rest.map Prod.fst := List.mem_map_of_mem Prod.fst hkv
        rwa [heq] at hh
      have hmap : rest.map (fun kv => if kv.1 = k1 then (kv.1, kv.2 ++ [o]) else kv) = rest := by
        have hpt : ∀ kv ∈ rest,
            (if kv.1 = k1 then (kv.1, kv.2 ++ [o]) else kv) = id kv :=
          fun kv hkv => if_neg (hrest kv hkv)
        rw [List.map_congr_left hpt, List.map_id]
      simp [hmap]
    · simp only [addObject, if_neg hk]
      have hmem2 : k ∈ rest.map Prod.fst := by
        rcases List.mem_cons.mp hmem with heq | h2
        · exact absurd heq.symm hk
        · exact h2
      rw [ih hnd.2 hmem2]
      simp [hk]

theorem aggSpec_map_fst (objs : List IdfObject) :
    (aggSpec objs).map Prod.fst = insKeys (objs.map aggKey) := by
  unfold aggSpec
  rw [List.map_map]
  have hcomp : (Prod.fst ∘ fun k => (k, objs.filter (fun o => aggKey o == k))) =
      (id : String → String) := rfl
  rw [hcomp, List.map_id]

theorem filter_append_single (ps : List IdfObject) (o : IdfObject) (k : String) :
    (ps ++ [o]).filter (fun o2 => aggKey o2 == k) =
      ps.filter (fun o2 => aggKey o2 == k) ++ (if aggKey o = k then [o] else []) := by
  rw [List.filter_append]
  congr 1
  by_cases h : aggKey o = k
  · simp [h]
  · simp [h]

/-- One aggregation step preserves the spec characterization. -/
theorem aggStep_aggSpec (ps : List IdfObject) (o : IdfObject) :
    aggStep (aggSpec ps) o = aggSpec (ps ++ [o]) := by
  have hmapkeys : (ps ++ [o]).map aggKey = ps.map aggKey ++ [aggKey o] := by simp
  by_cases hmem : aggKey o ∈ ps.map aggKey
  · have hkeys : insKeys ((ps ++ [o]).map aggKey) = insKeys (ps.map aggKey) := by
      rw [hmapkeys, insKeys_snoc, if_pos (mem_insKeys.mpr hmem)]
    have h1 : aggKey o ∈ (aggSpec ps).map Prod.fst := by
      rw [aggSpec_map_fst]
      exact mem_insKeys.mpr hmem
    have h2 : ((aggSpec ps).map Prod.fst).Nodup := by
      rw [aggSpec_map_fst]
      exact insKeys_nodup _
    unfold aggStep
    rw [addObject_of_mem (aggSpec ps) (aggKey o) o h2 h1]
    unfold aggSpec
    rw [hkeys, List.map_map]
    apply List.map_congr_left
    intro k hk
    simp only [Function.comp]
    by_cases hkk : k = aggKey o
    · rw [if_pos hkk, filter_append_single, if_pos hkk.symm]
    · rw [if_neg hkk, filter_append_single,
        if_neg (fun h => hkk h.symm), List.append_nil]
  · have hkeys : insKeys ((ps ++ [o]).map aggKey) =
        insKeys (ps.map aggKey) ++ [aggKey o] := by
      rw [hmapkeys, insKeys_snoc, if_neg (fun h => hmem (mem_insKeys.mp h))]
    have hno : ∀ kv ∈ aggSpec ps, kv.1 ≠ aggKey o := by
      intro kv hkv heq
      apply hmem
      have hh : kv.1 ∈ (aggSpec ps).map Prod.fst := List.mem_map_of_mem _ hkv
      rw [aggSpec_map_fst] at hh
      exact mem_insKeys.mp (heq ▸ hh)
    unfold aggStep
    rw [addObject_not_mem hno o]
    unfold aggSpec
    rw [hkeys, List.map_append]
    congr 1
    · apply List.map_congr_left
      intro k hk
      have hkne : aggKey o ≠ k := fun h => hmem (mem_insKeys.mp (h ▸ hk))
      rw [filter_append_single, if_neg hkne, List.append_nil]
    · simp only [List.map_cons, List.map_nil]
      rw [filter_append_single, if_pos rfl]
      have hnil : ps.filter (fun o2 => aggKey o2 == aggKey o) = [] := by
        rw [List.filter_eq_nil_iff]
        intro a ha hpa
        exact hmem (by
          have : aggKey a = aggKey o := by simpa using hpa
          exact this ▸ List.mem_map_of_mem aggKey ha)
      rw [hnil]
      simp

/-- The aggregation of `p_idffile` computes exactly the spec's
description: keys in first-occurrence order, each with the in-order
sublist of objects keyed to it. -/
theorem p_idffile_aggSpec (objs : List IdfObject) : p_idffile objs = aggSpec objs := by
  rw [p_idffile_foldl]
  suffices h : ∀ os ps, List.foldl aggStep (aggSpec ps) os = aggSpec (ps ++ os) by
    have h0 : aggSpec ([] : List IdfObject) = [] := rfl
    have h1 := h objs []
    rw [h0] at h1
    rw [h1]
    simp
  intro os
  induction os with
  | nil => intro ps; simp
  | cons o os2 ih =>
    intro ps
    simp only [List.foldl_cons]
    rw [aggStep_aggSpec, ih (ps ++ [o])]
    simp

theorem aggSpec_pairwise (objs : List IdfObject) :
    List.Pairwise (fun a b => a.1 ≠ b.1) (aggSpec objs) := by
  have h := insKeys_nodup (objs.map aggKey)
  unfold aggSpec
  rw [List.pairwise_map]
  simpa [List.Nodup] using h

theorem aggSpec_mem {objs : List IdfObject} {k : String} {seq : List IdfObject}
    (h : (k, seq) ∈ aggSpec objs) :
    seq = objs.filter (fun o => aggKey o == k) ∧ seq ≠ [] ∧
      ∀ o ∈ seq, aggKey o = k := by
  unfold aggSpec at h
  obtain ⟨k2, hk2, heq⟩ := List.mem_map.mp h
  simp only [Prod.mk.injEq] at heq
  obtain ⟨rfl, rfl⟩ := heq
  refine ⟨rfl, ?_, ?_⟩
  · have hkin : k2 ∈ objs.map aggKey := mem_insKeys.mp hk2
    obtain ⟨o, ho, hko⟩ := List.mem_map.mp hkin
    intro hnil
    have hmem2 : o ∈ objs.filter (fun o => aggKey o == k2) :=
      List.mem_filter.mpr ⟨ho, by simp [hko]⟩
    rw [hnil] at hmem2
    simp at hmem2
  · intro o ho
    have h3 := (List.mem_filter.mp ho).2
    simpa using h3

/-! ## Glue: structure of `parse` results -/

theorem parse_ok_objs {s : String} {D : Document} (h : parse s = .ok D) :
    ∃ objs, parsedObjects s = .ok objs ∧ D = p_idffile objs := by
  unfold parse at h
  cases hpo : parsedObjects s with
  | error e => rw [hpo] at h; simp at h
  | ok objs =>
    rw [hpo] at h
    simp only [Except.ok.injEq] at h
    exact ⟨objs, rfl, h.symm⟩

theorem parsedObjects_ok {s : String} {objs : List IdfObject}
    (h : parsedObjects s = .ok objs) :
    ∃ toks, tokenize s.data = .ok toks ∧ parseObjectList toks = .ok objs := by
  unfold parsedObjects at h
  cases htok : tokenize s.data with
  | error e => rw [htok] at h; simp at h
  | ok toks =>
    simp only [htok] at h
    cases hpol : parseObjectList toks with
    | error e => simp only [hpol] at h; simp at h
    | ok objs2 =>
      simp only [hpol, Except.ok.injEq] at h
      exact ⟨toks, rfl, by rw [hpol, h]⟩

theorem parseObjectList_ne_nil {toks : List Tok} {objs : List IdfObject}
    (h : parseObjectList toks = .ok objs) : objs ≠ [] := by
  unfold parseObjectList at h
  simp only [parseObjectListF] at h
  cases hobj : parseObject toks with
  | error e => rw [hobj] at h; simp at h
  | ok pr =>
    obtain ⟨obj, rest⟩ := pr
    cases rest with
    | nil =>
      simp only [hobj, Except.ok.injEq] at h
      subst h
      simp
    | cons t r =>
      cases hrec : parseObjectListF toks.length (t :: r) with
      | error e =>
        simp only [hobj, hrec] at h
        simp at h
      | ok objs2 =>
        simp only [hobj, hrec, Except.ok.injEq] at h
        subst h
        simp

/-- Every component of every object of a parsed document is fixed by
`pyStrip` and contains no `!`, `,`, `;` or newline; every object is
nonempty. -/
theorem parse_inv {s : String} {D : Document} (h : parse s = .ok D) :
    ∀ kv ∈ D, ∀ o ∈ kv.2,
      o ≠ [] ∧ ∀ v ∈ o, pyStrip v = v ∧ ∀ c ∈ v.data, isValChar c = true := by
  obtain ⟨objs, hpo, hD⟩ := parse_ok_objs h
  obtain ⟨toks, htok, hpol⟩ := parsedObjects_ok hpo
  subst hD
  rw [p_idffile_aggSpec]
  intro kv hkv o ho
  obtain ⟨k, seq⟩ := kv
  obtain ⟨hseq, _, _⟩ := aggSpec_mem hkv
  have hobjs : o ∈ objs := by
    rw [hseq] at ho
    exact (List.mem_filter.mp ho).1
  have hinv := parseObjectListF_inv (toks.length + 1) toks objs hpol o hobjs
  refine ⟨hinv.1, ?_⟩
  intro v hv
  obtain ⟨t, l, hmem, hvt⟩ := hinv.2 v hv
  have htok2 : tokenizeF s.data.length 1 s.data = .ok toks := htok
  have hchars := tokenizeF_value_inv s.data.length 1 s.data toks htok2 t l hmem
  subst hvt
  refine ⟨pyStrip_idem t, ?_⟩
  intro c hc
  exact hchars c (mem_pyStrip hc)

theorem mem_docObjects {D : Document} {o : IdfObject} :
    o ∈ docObjects D ↔ ∃ kv ∈ D, o ∈ kv.2 := by
  induction D with
  | nil => simp [docObjects]
  | cons kv rest ih =>
    simp only [docObjects, List.mem_append, ih, List.mem_cons]
    constructor
    · rintro (h | ⟨kv2, hkv2, ho⟩)
      · exact ⟨kv, Or.inl rfl, h⟩
      · exact ⟨kv2, Or.inr hkv2, ho⟩
    · rintro ⟨kv2, hkv2 | hkv2, ho⟩
      · subst hkv2; exact Or.inl ho
      · exact Or.inr ⟨kv2, hkv2, ho⟩

theorem canonObj_strip {o : IdfObject} (h : ∀ v ∈ o, canonStr v = true) :
    o.map pyStrip = o := by
  have hpt : ∀ v ∈ o, pyStrip v = id v := fun v hv => canonStr_strip (h v hv)
  rw [List.map_congr_left hpt, List.map_id]

/-- End-to-end: serializing a well-formed canonical document and parsing
it back yields the same document. -/
theorem parse_canonical_doc (D : Document)
    (hpw : List.Pairwise (fun a b => a.1 ≠ b.1) D)
    (hne : ∀ kv ∈ D, kv.2 ≠ [])
    (hkey : ∀ kv ∈ D, ∀ o ∈ kv.2, aggKey o = kv.1)
    (hcanon : ∀ o ∈ docObjects D, o ≠ [] ∧ ∀ v ∈ o, canonStr v = true)
    (hDne : docObjects D ≠ []) :
    parse (serializeDoc D) = .ok D := by
  set os := docObjects D with hos
  have hshape : ∀ o ∈ os, ∃ n vs, o = n :: vs ∧ canonStr n = true ∧
      ∀ v ∈ vs, canonStr v = true := by
    intro o ho
    obtain ⟨hone, hoc⟩ := hcanon o ho
    obtain ⟨n, vs, rfl⟩ : ∃ n vs, o = n :: vs := by
      cases o with
      | nil => exact absurd rfl hone
      | cons a b => exact ⟨a, b, rfl⟩
    exact ⟨n, vs, rfl, hoc n (by simp), fun v hv => hoc v (by simp [hv])⟩
  have hdata : (serializeDoc D).data = docChars os := serializeDoc_data D
  have htok : tokenize (serializeDoc D).data = .ok (docToks 1 os) := by
    rw [hdata]
    exact tok_doc os 1 hshape (docChars os).length le_rfl
  have holen : os.length ≤ (docToks 1 os).length + 1 :=
    Nat.le_succ_of_le (docToks_length 1 os)
  have hpol : parseObjectList (docToks 1 os) = .ok (os.map (List.map pyStrip)) :=
    parseOL_toks os 1 ((docToks 1 os).length + 1)
      (fun o ho => (hcanon o ho).1) hDne holen
  have hmaps : os.map (List.map pyStrip) = os := by
    have hpt : ∀ o ∈ os, o.map pyStrip = id o :=
      fun o ho => canonObj_strip (hcanon o ho).2
    rw [List.map_congr_left hpt, List.map_id]
  have hfold : p_idffile os = D := by
    rw [p_idffile_foldl, hos]
    have h := foldl_doc D [] hne hkey hpw (by simp)
    simpa using h
  unfold parse parsedObjects
  simp only [htok, hpol, hmaps, hfold]

/-- Serializing a one-object document is just serializing the object. -/
theorem serializeDoc_single (k : String) (o : IdfObject) :
    serializeDoc [(k, [o])] = serializeObject o := by
  simp [serializeDoc, docObjects, joinNL]

/-! ## The error dichotomy of the grammar

Every error `p_error` can raise is either the end-of-input error (the
lookahead was the end marker: tokens were exhausted mid-object, or there
were none at all) or an error at a concrete lookahead token of the
stream, reported with that token's matched text and line number. -/

theorem parseValuelist_err {toks : List Tok} {e : ParseErr}
    (h : parseValuelist toks = .error e) :
    e = .atEOF ∨ ∃ t ∈ toks, e = .atTok (tokText t) (tokLine t) := by
  induction toks using parseValuelist.induct generalizing e with
  | case1 v line text line2 rest0 vs0 rest2 hrec ih =>
    simp only [parseValuelist, hrec] at h
    simp at h
  | case2 v line text line2 rest0 e2 hrec ih =>
    simp only [parseValuelist, hrec, Except.error.injEq] at h
    subst h
    rcases ih hrec with h1 | ⟨t, ht, h2⟩
    · exact Or.inl h1
    · exact Or.inr ⟨t, by simp [ht], h2⟩
  | case3 v line rest0 hnc =>
    rw [parseValuelist] at h
    · simp at h
    · exact hnc
  | case4 =>
    simp only [parseValuelist, Except.error.injEq] at h
    exact Or.inl h.symm
  | case5 t tail h1 h2 =>
    rw [parseValuelist] at h
    · simp only [Except.error.injEq] at h
      exact Or.inr ⟨t, by simp, h.symm⟩
    · exact h1
    · exact h2

theorem parseObject_err {toks : List Tok} {e : ParseErr}
    (h : parseObject toks = .error e) :
    e = .atEOF ∨ ∃ t ∈ toks, e = .atTok (tokText t) (tokLine t) := by
  cases toks with
  | nil =>
    simp only [parseObject, Except.error.injEq] at h
    exact Or.inl h.symm
  | cons t1 tl =>
    cases t1 with
    | COMMA s1 l1 =>
      simp only [parseObject, Except.error.injEq] at h
      exact Or.inr ⟨.COMMA s1 l1, by simp, h.symm⟩
    | SEMICOLON s1 l1 =>
      simp only [parseObject, Except.error.injEq] at h
      exact Or.inr ⟨.SEMICOLON s1 l1, by simp, h.symm⟩
    | VALUE v l =>
      cases tl with
      | nil =>
        simp only [parseObject, Except.error.injEq] at h
        exact Or.inl h.symm
      | cons t2 tl2 =>
        cases t2 with
        | VALUE v2 l2 =>
          simp only [parseObject, Except.error.injEq] at h
          exact Or.inr ⟨.VALUE v2 l2, by simp, h.symm⟩
        | SEMICOLON s2 l2 => simp [parseObject] at h
        | COMMA s2 l2 =>
          cases hvl : parseValuelist tl2 with
          | error e2 =>
            simp only [parseObject, hvl, Except.error.injEq] at h
            subst h
            rcases parseValuelist_err hvl with h1 | ⟨t, ht, h2⟩
            · exact Or.inl h1
            · exact Or.inr ⟨t, by simp [ht], h2⟩
          | ok pr =>
            obtain ⟨vs, rest2⟩ := pr
            cases rest2 with
            | nil =>
              simp only [parseObject, hvl, Except.error.injEq] at h
              exact Or.inl h.symm
            | cons t3 tl3 =>
              have hsub := (parseValuelist_inv hvl).2
              cases t3 with
              | SEMICOLON s3 l3 => simp [parseObject, hvl] at h
              | VALUE v3 l3 =>
                simp only [parseObject, hvl, Except.error.injEq] at h
                refine Or.inr ⟨.VALUE v3 l3, ?_, h.symm⟩
                have hm := hsub (.VALUE v3 l3) (by simp)
                simp [hm]
              | COMMA s3 l3 =>
                simp only [parseObject, hvl, Except.error.injEq] at h
                refine Or.inr ⟨.COMMA s3 l3, ?_, h.symm⟩
                have hm := hsub (.COMMA s3 l3) (by simp)
                simp [hm]

theorem parseObjectListF_err :
    ∀ (fuel : Nat) (toks : List Tok) (e : ParseErr),
      parseObjectListF fuel toks = .error e →
      e = .atEOF ∨ ∃ t ∈ toks, e = .atTok (tokText t) (tokLine t) := by
  intro fuel
  induction fuel with
  | zero => intro toks e h; simp [parseObjectListF] at h
  | succ f ih =>
    intro toks e h
    cases hobj : parseObject toks with
    | error e2 =>
      simp only [parseObjectListF, hobj, Except.error.injEq] at h
      subst h
      exact parseObject_err hobj
    | ok pr =>
      obtain ⟨obj, rest⟩ := pr
      cases rest with
      | nil => simp [parseObjectListF, hobj] at h
      | cons t r =>
        cases hrec : parseObjectListF f (t :: r) with
        | ok objs2 => simp [parseObjectListF, hobj, hrec] at h
        | error e2 =>
          simp only [parseObjectListF, hobj, hrec, Except.error.injEq] at h
          subst h
          have hsub := (parseObject_inv hobj).2.2
          rcases ih (t :: r) e2 hrec with h1 | ⟨t2, ht2, h2⟩
          · exact Or.inl h1
          · exact Or.inr ⟨t2, hsub t2 ht2, h2⟩

/-- Every grammar error raised by `parse` is either the distinct
end-of-input error or reports the text and line number of a token of the
lexed stream. -/
theorem parse_grammar_err {s : String} {e : ParseErr}
    (h : parse s = .error (.grammar e)) :
    e = .atEOF ∨ ∃ toks t, tokenize s.data = .ok toks ∧ t ∈ toks ∧
      e = .atTok (tokText t) (tokLine t) := by
  obtain ⟨toks, htoks⟩ := tokenizeF_ok s.data.length 1 s.data
  have htoks2 : tokenize s.data = .ok toks := htoks
  unfold parse parsedObjects at h
  simp only [htoks2] at h
  cases hpol : parseObjectList toks with
  | ok objs => simp only [hpol] at h; simp at h
  | error e2 =>
    simp only [hpol, Except.error.injEq, IdfError.grammar.injEq] at h
    subst h
    have hpol2 : parseObjectListF (toks.length + 1) toks = .error e2 := hpol
    rcases parseObjectListF_err (toks.length + 1) toks e2 hpol2 with h1 | ⟨t, ht, h2⟩
    · exact Or.inl h1
    · exact Or.inr ⟨toks, t, htoks2, ht, h2⟩

/-! ## A successful parse consumes a stream ending in `SEMICOLON`

Hence a token sequence that ends mid-object (its last token is not the
object terminator) can never produce a Document, empty or partial. -/

theorem parseValuelist_prefix {toks : List Tok} {vs : List String} {rest : List Tok}
    (h : parseValuelist toks = .ok (vs, rest)) : ∃ pre, toks = pre ++ rest := by
  induction toks using parseValuelist.induct generalizing vs rest with
  | case1 v line text line2 rest0 vs0 rest2 hrec ih =>
    simp only [parseValuelist, hrec, Except.ok.injEq, Prod.mk.injEq] at h
    obtain ⟨hvs, hrest⟩ := h
    subst hrest
    obtain ⟨pre0, hpre⟩ := ih hrec
    exact ⟨.VALUE v line :: .COMMA text line2 :: pre0, by simp [hpre]⟩
  | case2 v line text line2 rest0 e hrec ih =>
    simp only [parseValuelist, hrec] at h
    simp at h
  | case3 v line rest0 hnc =>
    rw [parseValuelist] at h
    · simp only [Except.ok.injEq, Prod.mk.injEq] at h
      obtain ⟨_, hrest⟩ := h
      subst hrest
      exact ⟨[.VALUE v line], rfl⟩
    · exact hnc
  | case4 => simp [parseValuelist] at h
  | case5 t tail h1 h2 =>
    rw [parseValuelist] at h
    · simp at h
    · exact h1
    · exact h2

theorem parseObject_semi {toks : List Tok} {obj : IdfObject} {rest : List Tok}
    (h : parseObject toks = .ok (obj, rest)) :
    ∃ pre text line, toks = pre ++ (Tok.SEMICOLON text line :: rest) := by
  cases toks with
  | nil => simp [parseObject] at h
  | cons t1 tl =>
    cases t1 with
    | COMMA s1 l1 => simp [parseObject] at h
    | SEMICOLON s1 l1 => simp [parseObject] at h
    | VALUE v l =>
      cases tl with
      | nil => simp [parseObject] at h
      | cons t2 tl2 =>
        cases t2 with
        | VALUE v2 l2 => simp [parseObject] at h
        | SEMICOLON s2 l2 =>
          simp only [parseObject, Except.ok.injEq, Prod.mk.injEq] at h
          obtain ⟨_, hrest⟩ := h
          subst hrest
          exact ⟨[.VALUE v l], s2, l2, rfl⟩
        | COMMA s2 l2 =>
          cases hvl : parseValuelist tl2 with
          | error e => simp [parseObject, hvl] at h
          | ok pr =>
            obtain ⟨vs, rest2⟩ := pr
            cases rest2 with
            | nil => simp [parseObject, hvl] at h
            | cons t3 tl3 =>
              cases t3 with
              | VALUE v3 l3 => simp [parseObject, hvl] at h
              | COMMA s3 l3 => simp [parseObject, hvl] at h
              | SEMICOLON s3 l3 =>
                simp only [parseObject, hvl, Except.ok.injEq, Prod.mk.injEq] at h
                obtain ⟨_, hrest⟩ := h
                subst hrest
                obtain ⟨pre2, hpre⟩ := parseValuelist_prefix hvl
                exact ⟨.VALUE v l :: .COMMA s2 l2 :: pre2, s3, l3, by simp [hpre]⟩

theorem parseObjectListF_semi :
    ∀ (fuel : Nat) (toks : List Tok) (objs : List IdfObject),
      toks.length ≤ fuel → toks ≠ [] →
      parseObjectListF fuel toks = .ok objs →
      ∃ pre text line, toks = pre ++ [Tok.SEMICOLON text line] := by
  intro fuel
  induction fuel with
  | zero =>
    intro toks objs hlen hne h
    cases toks with
    | nil => exact absurd rfl hne
    | cons t r => simp at hlen
  | succ f ih =>
    intro toks objs hlen hne h
    cases hobj : parseObject toks with
    | error e => simp [parseObjectListF, hobj] at h
    | ok pr =>
      obtain ⟨obj, rest⟩ := pr
      obtain ⟨pre, text, line, hsplit⟩ := parseObject_semi hobj
      cases rest with
      | nil => exact ⟨pre, text, line, hsplit⟩
      | cons t r =>
        cases hrec : parseObjectListF f (t :: r) with
        | error e => simp [parseObjectListF, hobj, hrec] at h
        | ok objs2 =>
          have hlen2 : (t :: r).length ≤ f := by
            have hlen3 : toks.length = pre.length + 1 + (t :: r).length := by
              rw [hsplit]
              simp only [List.length_append, List.length_cons]
              omega
            omega
          obtain ⟨pre2, text2, line2, hsplit2⟩ :=
            ih (t :: r) objs2 hlen2 (by simp) hrec
          refine ⟨pre ++ Tok.SEMICOLON text line :: pre2, text2, line2, ?_⟩
          rw [hsplit, hsplit2]
          simp

/-- The token stream of any successful parse ends in the object
terminator `SEMICOLON`. -/
theorem parse_ok_semi {s : String} {D : Document} {toks : List Tok}
    (h : parse s = .ok D) (htoks : tokenize s.data = .ok toks) :
    ∃ pre text line, toks = pre ++ [Tok.SEMICOLON text line] := by
  obtain ⟨objs, hpo, _⟩ := parse_ok_objs h
  obtain ⟨toks2, htok2, hpol⟩ := parsedObjects_ok hpo
  rw [htoks] at htok2
  injection htok2 with heq
  subst heq
  have hne : toks ≠ [] := by
    intro hnil
    subst hnil
    simp [parseObjectList, parseObjectListF, parseObject] at hpol
  have hpol2 : parseObjectListF (toks.length + 1) toks = .ok objs := hpol
  exact parseObjectListF_semi (toks.length + 1) toks objs (by omega) hne hpol2

/-! ## The claims -/

/-- Claim C1: for every well-formed object text `name, v1, ..., vn;`
(name and each value canonical: nonempty, free of `!`, `,`, `;` and
newlines, and with no surrounding whitespace), `parse` returns the
Document mapping `uppercase(name)` to the single IdfObject
`[name, v1, ..., vn]` — the name's original case preserved, the values
in left-to-right source order, and an object with no fields (`vs = []`)
yielding an IdfObject of length 1. -/
theorem claim1_object_text (n : String) (vs : List String)
    (hn : canonStr n = true) (hvs : ∀ v ∈ vs, canonStr v = true) :
    parse (serializeObject (n :: vs)) = .ok [(pyUpper n, [n :: vs])] := by
  rw [← serializeDoc_single (pyUpper n) (n :: vs)]
  apply parse_canonical_doc
  · simp
  · simp
  · intro kv hkv o ho
    rcases List.mem_singleton.mp hkv with rfl
    rcases List.mem_singleton.mp ho with rfl
    rfl
  · intro o ho
    have hoeq : o = n :: vs := by simpa [docObjects] using ho
    subst hoeq
    refine ⟨by simp, ?_⟩
    intro v hv
    rcases List.mem_cons.mp hv with rfl | hv2
    · exact hn
    · exact hvs v hv2
  · simp [docObjects]

/-- Witness for C1, covering the spec's concrete example
`parse("Material, Brick, 0.5, 0.8;")` and the no-fields case
`parse("Version;")` (a length-1 IdfObject). -/
theorem claim1_witness :
    canonStr "Material" = true ∧
    parse "Material, Brick, 0.5, 0.8;" =
      .ok [("MATERIAL", [["Material", "Brick", "0.5", "0.8"]])] ∧
    parse "Version;" = .ok [("VERSION", [["Version"]])] := by
  refine ⟨by decide, ?_, ?_⟩
  · have h := claim1_object_text "Material" ["Brick", "0.5", "0.8"]
      (by decide) (by decide)
    have hs : serializeObject ["Material", "Brick", "0.5", "0.8"] =
        "Material, Brick, 0.5, 0.8;" := by decide
    have hup : pyUpper "Material" = "MATERIAL" := by decide
    rw [hs, hup] at h
    exact h
  · have h := claim1_object_text "Version" [] (by decide) (by simp)
    have hs : serializeObject ["Version"] = "Version;" := by decide
    have hup : pyUpper "Version" = "VERSION" := by decide
    rw [hs, hup] at h
    exact h

/-- Claim C2, code behavior at the failing input: in
`"A;\n! note\n;"` the comment rule consumes the newline that ends line 1
together with `"! note"`, but `t_COMMENT` adds the newline count to the
discarded token object's `lineno` instead of `t.lexer.lineno`, so the
lexer's line counter never advances across the comment.  The offending
`';'` sits on physical source line 3, yet the error reports line 2 (only
the second newline, lexed by `t_newline`, advanced the counter). -/
theorem claim2_comment_lineno :
    parse "A;\n! note\n;" = .error (.grammar (.atTok ";" 2)) := by rfl

/-- Claim C3, code behavior at the failing input: in `"A;\r\n;"` the
newline run `"\r\n"` is one newline occurrence, but `t_newline` performs
`lineno += len(t.value)` and adds 2.  The offending `';'` sits on
physical source line 2, yet the error reports line 3. -/
theorem claim3_newline_lineno :
    parse "A;\r\n;" = .error (.grammar (.atTok ";" 3)) := by rfl

/-- Counterexample to claim C4 as stated: the document returned by a
successful parse of `"Material,\r,0.5;"` contains the empty field value
`""` (a lone carriage return strips to nothing), its re-serialization is
`"Material, , 0.5;"`, and re-parsing that text fails with a syntax error
at the second comma instead of returning the document. -/
theorem claim4_counterexample :
    parse "Material,\r,0.5;" = .ok [("MATERIAL", [["Material", "", "0.5"]])] ∧
    serializeDoc [("MATERIAL", [["Material", "", "0.5"]])] = "Material, , 0.5;" ∧
    parse "Material, , 0.5;" = .error (.grammar (.atTok ", " 1)) := by
  refine ⟨by rfl, by rfl, by rfl⟩

/-- Claim C4 as amended: the round-trip law holds for every Document
returned by a successful parse in which every object component (name and
field values) is a nonempty string. -/
theorem claim4_amended_roundtrip (s : String) (D : Document)
    (h : parse s = .ok D)
    (hne : ∀ kv ∈ D, ∀ o ∈ kv.2, ∀ v ∈ o, v ≠ "") :
    parse (serializeDoc D) = .ok D := by
  obtain ⟨objs, hpo, hD⟩ := parse_ok_objs h
  obtain ⟨toks, htok, hpol⟩ := parsedObjects_ok hpo
  have hinv := parse_inv h
  apply parse_canonical_doc D
  · rw [hD, p_idffile_aggSpec]
    exact aggSpec_pairwise objs
  · intro kv hkv
    rw [hD, p_idffile_aggSpec] at hkv
    obtain ⟨k, seq⟩ := kv
    exact (aggSpec_mem hkv).2.1
  · intro kv hkv o ho
    rw [hD, p_idffile_aggSpec] at hkv
    obtain ⟨k, seq⟩ := kv
    exact (aggSpec_mem hkv).2.2 o ho
  · intro o ho
    obtain ⟨kv, hkv, ho2⟩ := mem_docObjects.mp ho
    obtain ⟨hone, hcomp⟩ := hinv kv hkv o ho2
    refine ⟨hone, ?_⟩
    intro v hv
    obtain ⟨hstrip, hval⟩ := hcomp v hv
    have hvne : v ≠ "" := hne kv hkv o ho2 v hv
    have hdne : v.data ≠ [] := by
      intro hd
      apply hvne
      cases v with
      | mk d =>
        simp only at hd
        subst hd
        rfl
    simp only [canonStr, Bool.and_eq_true, beq_iff_eq]
    refine ⟨⟨by simpa [List.isEmpty_iff] using hdne, ?_⟩, hstrip⟩
    rw [List.all_eq_true]
    exact hval
  · have hobjsne : objs ≠ [] := parseObjectList_ne_nil hpol
    obtain ⟨o0, orest, rfl⟩ : ∃ a b, objs = a :: b := by
      cases objs with
      | nil => exact absurd rfl hobjsne
      | cons a b => exact ⟨a, b, rfl⟩
    have ho0 : o0 ∈ docObjects D := by
      rw [hD, p_idffile_aggSpec]
      refine mem_docObjects.mpr
        ⟨(aggKey o0, (o0 :: orest).filter (fun o => aggKey o == aggKey o0)),
          List.mem_map.mpr ⟨aggKey o0, mem_insKeys.mpr (by simp), rfl⟩,
          List.mem_filter.mpr ⟨by simp, by simp⟩⟩
    exact List.ne_nil_of_mem ho0

/-- Witness for the amended C4 at a concrete parse. -/
theorem claim4_witness :
    parse (serializeDoc [("MATERIAL", [["Material", "Brick", "0.5", "0.8"]])]) =
      .ok [("MATERIAL", [["Material", "Brick", "0.5", "0.8"]])] :=
  claim4_amended_roundtrip "Material, Brick, 0.5, 0.8;"
    [("MATERIAL", [["Material", "Brick", "0.5", "0.8"]])] (by rfl) (by decide)

/-- Claim C5: an input lexing to zero tokens (empty or all-comment)
gives the distinct end-of-input syntax error; universally, every grammar
error `parse` raises is either that distinct end-of-input indication
(tokens were exhausted mid-object or there were none) or names the text
and line number of an offending token present in the lexed stream; and a
successful parse's token stream always ends in the object-terminating
`SEMICOLON`, so a stream that ends mid-object never yields an empty or
partial Document.  The spec's concrete instances — empty input,
all-comment input, missing trailing `;`, and rejection at a present
token — are included. -/
theorem claim5_syntax_errors :
    (∀ s : String, tokenize s.data = .ok [] → parse s = .error (.grammar .atEOF)) ∧
    (∀ (s : String) (e : ParseErr), parse s = .error (.grammar e) →
      e = .atEOF ∨ ∃ toks t, tokenize s.data = .ok toks ∧ t ∈ toks ∧
        e = .atTok (tokText t) (tokLine t)) ∧
    (∀ (s : String) (D : Document) (toks : List Tok),
      parse s = .ok D → tokenize s.data = .ok toks →
      ∃ pre text line, toks = pre ++ [Tok.SEMICOLON text line]) ∧
    parse "" = .error (.grammar .atEOF) ∧
    parse "! only a comment\n" = .error (.grammar .atEOF) ∧
    parse "Material, Brick, 0.5, 0.8" = .error (.grammar .atEOF) ∧
    parse "Material,;" = .error (.grammar (.atTok ";" 1)) := by
  refine ⟨?_, ?_, ?_, by rfl, by rfl, by rfl, by rfl⟩
  · intro s htok
    unfold parse parsedObjects
    simp only [htok]
    rfl
  · intro s e h
    exact parse_grammar_err h
  · intro s D toks h htoks
    exact parse_ok_semi h htoks

/-- Witness for C5's universal parts: the zero-token branch at an
all-comment input, the error dichotomy at the present-token rejection of
`"Material,;"`, and the stream-ends-in-`SEMICOLON` property at the
successful parse of `"A;"`. -/
theorem claim5_witness :
    parse "! c" = .error (.grammar .atEOF) ∧
    (ParseErr.atTok ";" 1 = .atEOF ∨
      ∃ toks t, tokenize "Material,;".data = .ok toks ∧ t ∈ toks ∧
        ParseErr.atTok ";" 1 = .atTok (tokText t) (tokLine t)) ∧
    (∃ pre text line,
      [Tok.VALUE "A" 1, Tok.SEMICOLON ";" 1] = pre ++ [Tok.SEMICOLON text line]) :=
  ⟨claim5_syntax_errors.1 "! c" (by rfl),
   claim5_syntax_errors.2.1 "Material,;" (.atTok ";" 1) (by rfl),
   claim5_syntax_errors.2.2.1 "A;" [("A", [["A"]])]
     [Tok.VALUE "A" 1, Tok.SEMICOLON ";" 1] (by rfl) (by rfl)⟩

/-- Counterexample to claim C6 as stated: `'$'` is matched by the VALUE
rule, so `parse "Material, Brick, 0.5, 0.8; $"` raises the grammar
error "Syntax error at EOF" (the `'$'` begins an unterminated object),
not a lexical error naming `'$'`. -/
theorem claim6_counterexample :
    parse "Material, Brick, 0.5, 0.8; $" = .error (.grammar .atEOF) := by rfl

/-- Claim C6 as amended: no character is matched by no lexer rule — the
VALUE rule accepts every character other than `!`, `,`, `;` and newline,
each of which starts its own rule — so lexing always succeeds and the
`t_error` lexical error is unreachable; the spec's example instead fails
with the end-of-input syntax error. -/
theorem claim6_amended_no_lexical :
    (∀ cs : List Char, ∃ toks, tokenize cs = .ok toks) ∧
    parse "Material, Brick, 0.5, 0.8; $" = .error (.grammar .atEOF) :=
  ⟨fun cs => tokenizeF_ok cs.length 1 cs, by rfl⟩

/-- Claim C7: in any successfully parsed document, the sequence stored
under a key is exactly the in-source-order sublist of the parsed objects
whose uppercased name equals that key — same-type objects keep their
relative source order. -/
theorem claim7_same_type_order (s : String) (objs : List IdfObject) (D : Document)
    (k : String) (seq : List IdfObject)
    (h1 : parsedObjects s = .ok objs) (h2 : parse s = .ok D)
    (hmem : (k, seq) ∈ D) :
    seq = objs.filter (fun o => aggKey o == k) := by
  obtain ⟨objs2, hpo, hD⟩ := parse_ok_objs h2
  rw [h1] at hpo
  injection hpo with hobjs
  subst hobjs
  subst hD
  rw [p_idffile_aggSpec] at hmem
  exact (aggSpec_mem hmem).1

/-- Witness for C7 at the spec's two-Zone example. -/
theorem claim7_witness :
    parse "Zone, LivingRoom, 20;\nZone, Kitchen, 15;" =
      .ok [("ZONE", [["Zone", "LivingRoom", "20"], ["Zone", "Kitchen", "15"]])] ∧
    [["Zone", "LivingRoom", "20"], ["Zone", "Kitchen", "15"]] =
      [["Zone", "LivingRoom", "20"], ["Zone", "Kitchen", "15"]].filter
        (fun o => aggKey o == "ZONE") := by
  refine ⟨by rfl, ?_⟩
  exact claim7_same_type_order "Zone, LivingRoom, 20;\nZone, Kitchen, 15;"
    [["Zone", "LivingRoom", "20"], ["Zone", "Kitchen", "15"]]
    [("ZONE", [["Zone", "LivingRoom", "20"], ["Zone", "Kitchen", "15"]])]
    "ZONE" [["Zone", "LivingRoom", "20"], ["Zone", "Kitchen", "15"]]
    (by rfl) (by rfl) (by simp)

/-- Claim C8: the key order of a parsed document is the order of first
appearance of each distinct uppercased type name (insertion order, not
alphabetical), and the aggregation is exactly the spec's algorithm — no
deduplication, no reordering, no mutation of field values. -/
theorem claim8_key_order (s : String) (objs : List IdfObject) (D : Document)
    (h1 : parsedObjects s = .ok objs) (h2 : parse s = .ok D) :
    D.map Prod.fst = insKeys (objs.map aggKey) ∧ D = aggSpec objs := by
  obtain ⟨objs2, hpo, hD⟩ := parse_ok_objs h2
  rw [h1] at hpo
  injection hpo with hobjs
  subst hobjs
  subst hD
  rw [p_idffile_aggSpec]
  exact ⟨aggSpec_map_fst objs, rfl⟩

/-- Witness for C8 at an input whose insertion order differs from
alphabetical order: keys come out `["ZONE", "BUILDING"]`. -/
theorem claim8_witness :
    parse "Zone, A;\nBuilding, B;" =
      .ok [("ZONE", [["Zone", "A"]]), ("BUILDING", [["Building", "B"]])] ∧
    ([("ZONE", [["Zone", "A"]]), ("BUILDING", [["Building", "B"]])] : Document).map
        Prod.fst =
      insKeys ([["Zone", "A"], ["Building", "B"]].map aggKey) ∧
    insKeys ([["Zone", "A"], ["Building", "B"]].map aggKey) = ["ZONE", "BUILDING"] := by
  refine ⟨by rfl, ?_, by rfl⟩
  exact (claim8_key_order "Zone, A;\nBuilding, B;"
    [["Zone", "A"], ["Building", "B"]]
    [("ZONE", [["Zone", "A"]]), ("BUILDING", [["Building", "B"]])]
    (by rfl) (by rfl)).1

/-- Claim C9: no type name or field value of a successfully parsed
document retains leading or trailing whitespace — every component is
fixed by `pyStrip`. -/
theorem claim9_no_whitespace (s : String) (D : Document) (h : parse s = .ok D) :
    ∀ kv ∈ D, ∀ o ∈ kv.2, ∀ v ∈ o, pyStrip v = v := by
  intro kv hkv o ho v hv
  exact ((parse_inv h kv hkv o ho).2 v hv).1

/-- Witness for C9 at the spec's padded example. consequently the padded
input parses to the same document as its unpadded equivalent. -/
theorem claim9_witness :
    parse "  Material ,  Wood , 0.3 , 0.6 ;" = parse "Material,Wood,0.3,0.6;" ∧
    parse "  Material ,  Wood , 0.3 , 0.6 ;" =
      .ok [("MATERIAL", [["Material", "Wood", "0.3", "0.6"]])] ∧
    pyStrip "Wood" = "Wood" := by
  refine ⟨by rfl, by rfl, ?_⟩
  exact claim9_no_whitespace "  Material ,  Wood , 0.3 , 0.6 ;"
    [("MATERIAL", [["Material", "Wood", "0.3", "0.6"]])] (by rfl)
    ("MATERIAL", [["Material", "Wood", "0.3", "0.6"]]) (by simp)
    ["Material", "Wood", "0.3", "0.6"] (by simp) "Wood" (by simp)

/-- Claim C10: a successful parse can return a Document containing an
empty-string field value: in `"Material,\r,0.5;"` the middle field is a
lone carriage return, which the VALUE rule matches and `strip()` reduces
to `""`. -/
theorem claim10_empty_value :
    parse "Material,\r,0.5;" = .ok [("MATERIAL", [["Material", "", "0.5"]])] := by rfl

end ParseIdf
